import Mathlib

/-!
Verification of the tellstore log substrate (src/util/Log.cpp) and the
row-store page garbage collector (src/deltamain/rowstore/RowStorePage.cpp)
against the repository specification.

The C++ code is shallowly embedded: machine words become Nat with the bit
packings written out explicitly ((x <<< 1) ||| 1 becomes 2 * x + 1, x >>> 1
becomes x / 2, clearing the low bit becomes 2 * (x / 2)); raw page memory
becomes functions from positions to the word stored there; loops become
fuel-indexed structural recursions, with lemmas showing the chosen fuel is
sufficient; fallible operations return Option.

Sequential semantics: the public operations of the logs are modelled as
atomic state transformers, which is the behaviour of the C++ code when a
single thread runs an operation to completion; every compare-exchange then
succeeds against the value just read.  For LogPage::appendEntry, whose
return-value contract (claim C2) is explicitly about racing seals, the
function is additionally embedded against an explicit interference oracle
that supplies the values each atomic access observes.
-/

/-! ## Log layout constants and word-level primitives.

Modelled from the spec: Log.hpp is not under src/.  The spec fixes
LOG_ENTRY_SIZE = 16 (a 16 byte entry header), a page size of 2 MiB,
MAX_ENTRY_SIZE = PAGE_SIZE - LOG_HEADER_SIZE, LOG_HEADER_SIZE mod 16 = 8
(so that entry payloads are 16 byte aligned) and
entrySizeFromSize size = round-up-to-16 (size + header). -/

def LOG_ENTRY_SIZE : Nat := 16

def PAGE_SIZE : Nat := 2097152

def LOG_HEADER_SIZE : Nat := 24

def MAX_ENTRY_SIZE : Nat := PAGE_SIZE - LOG_HEADER_SIZE

/-- Modelled from the spec: payload padded so that size + 16 byte header is
rounded up to the next multiple of 16. -/
def entrySizeFromSize (size : Nat) : Nat :=
  ((size + LOG_ENTRY_SIZE + 15) / 16) * 16

theorem entrySizeFromSize_mod16 (s : Nat) : entrySizeFromSize s % 16 = 0 := by
  simp [entrySizeFromSize, Nat.mul_mod_left]

theorem le_entrySizeFromSize (s : Nat) : 16 ≤ entrySizeFromSize s := by
  have h : 1 ≤ (s + LOG_ENTRY_SIZE + 15) / 16 := by
    apply Nat.le_div_iff_mul_le (by norm_num) |>.2
    simp only [LOG_ENTRY_SIZE]
    omega
  calc 16 = 1 * 16 := by norm_num
    _ ≤ ((s + LOG_ENTRY_SIZE + 15) / 16) * 16 := Nat.mul_le_mul_right 16 h

theorem entrySizeFromSize_pos (s : Nat) : 0 < entrySizeFromSize s :=
  lt_of_lt_of_le (by norm_num) (le_entrySizeFromSize s)

theorem le32_entrySizeFromSize {s : Nat} (h : 1 ≤ s) : 32 ≤ entrySizeFromSize s := by
  have h2 : 2 ≤ (s + LOG_ENTRY_SIZE + 15) / 16 := by
    apply Nat.le_div_iff_mul_le (by norm_num) |>.2
    simp only [LOG_ENTRY_SIZE]
    omega
  calc 32 = 2 * 16 := by norm_num
    _ ≤ ((s + LOG_ENTRY_SIZE + 15) / 16) * 16 := Nat.mul_le_mul_right 16 h2

/-! ## LogEntry::tryAcquire (src/util/Log.cpp lines 37-48).

The entry header state is the pair (mSize, mType) of raw 32 bit words.
tryAcquire CASes mSize from 0 to (size <<< 1) ||| 1 and then stores the
type; on collision it returns entrySizeFromSize of the occupying payload
size (the stored word shifted right by one).  The function below returns
(result, new mSize, new mType). -/

def tryAcquire (mSize mType : Nat) (size type : Nat) : Nat × Nat × Nat :=
  let s := 2 * size + 1
  if mSize = 0 then (0, s, type)
  else (entrySizeFromSize (mSize / 2), mSize, mType)

/-- C6: LogEntry::tryAcquire returns 0 exactly when it transitions the size
field from 0 (free) to (size <<< 1) ||| 1 and stores the type; when the entry
is occupied it leaves the header unchanged and returns entrySizeFromSize of
the occupying entry's payload size, letting the caller skip the entry. -/
theorem tryAcquire_spec (mSize mType size type : Nat)
    (hpos : 0 < size) (hmsb : size < 2 ^ 31) :
    ((tryAcquire mSize mType size type).1 = 0 ↔ mSize = 0) ∧
    (mSize = 0 →
      tryAcquire mSize mType size type = (0, 2 * size + 1, type)) ∧
    (mSize ≠ 0 →
      (tryAcquire mSize mType size type).2 = (mSize, mType) ∧
      (tryAcquire mSize mType size type).1 = entrySizeFromSize (mSize / 2)) := by
  refine ⟨?_, ?_, ?_⟩
  · constructor
    · intro h
      by_contra hne
      simp only [tryAcquire, if_neg hne] at h
      exact absurd h (Nat.ne_of_gt (entrySizeFromSize_pos (mSize / 2)))
    · intro h; simp [tryAcquire, h]
  · intro h; simp [tryAcquire, h]
  · intro h; simp [tryAcquire, h]

theorem tryAcquire_spec_witness :
    (0 < 5 ∧ 5 < 2 ^ 31 ∧ tryAcquire 0 0 5 7 = (0, 11, 7)) ∧
    (tryAcquire 11 7 5 9).2 = (11, 7) ∧ (tryAcquire 11 7 5 9).1 = 32 :=
  ⟨⟨by decide, by decide, (tryAcquire_spec 0 0 5 7 (by decide) (by decide)).2.1 rfl⟩,
   ((tryAcquire_spec 11 7 5 9 (by decide) (by decide)).2.2 (by decide)).1,
   by have h := ((tryAcquire_spec 11 7 5 9 (by decide) (by decide)).2.2 (by decide)).2
      rw [h]; decide⟩

/-! ## LogPage::appendEntry (src/util/Log.cpp lines 59-107) against an
interference oracle.

The page state touched by appendEntry is the atomic page offset word and
the atomic size words of the probed entry headers.  Claim C2 is about what
concurrent interference makes the function return null, so the embedding
takes the values each atomic access observes as an explicit oracle:

* `initOffset` is the value of the single mOffset.load() at the top;
* `occ pos` is the outcome of tryAcquire at position pos: none means the
  CAS succeeded (the header was free), some w means it failed against the
  occupying word w (the function then skips entrySizeFromSize (w >>> 1));
* `pubObs` is the sequence of mOffset values observed by the failing
  iterations of the publish CAS loop; when the list is exhausted the CAS
  succeeds.

The skip loop advances by at least 16 bytes per probe and only continues
while pos + entrySize <= MAX_ENTRY_SIZE, so `probeFuel` iterations always
suffice: when the fuel hits zero the invariant MAX_ENTRY_SIZE < pos + 16 *
fuel forces the size check to fail anyway, which is exactly what the
fuel-out branch returns (lemma appendProbeA_faithful). -/

structure AppendObs where
  initOffset : Nat
  occ : Nat → Option Nat
  pubObs : List Nat

def probeFuel : Nat := MAX_ENTRY_SIZE

def appendProbeA (occ : Nat → Option Nat) (e : Nat) : Nat → Nat → Option Nat
  | 0, _ => none
  | fuel + 1, pos =>
    if pos + e > MAX_ENTRY_SIZE then none
    else
      match occ pos with
      | none => some pos
      | some w => appendProbeA occ e fuel (pos + entrySizeFromSize (w / 2))

def appendProbe (occ : Nat → Option Nat) (pos e : Nat) : Option Nat :=
  appendProbeA occ e probeFuel pos

/-- Positions at which appendEntry runs the 16-byte-alignment assertion:
every position that passes the size check and is handed to tryAcquire. -/
def probedPositions (occ : Nat → Option Nat) (e : Nat) : Nat → Nat → List Nat
  | 0, _ => []
  | fuel + 1, pos =>
    if pos + e > MAX_ENTRY_SIZE then []
    else
      pos ::
        (match occ pos with
         | none => []
         | some w => probedPositions occ e fuel (pos + entrySizeFromSize (w / 2)))

/-- The publish CAS loop (lines 87-103): local variable offv starts from the
initially loaded offset; each failing CAS replaces it with the observed
value; returns true when the function returns the entry and false when it
returns null because a seal raced in before the publish. -/
def publishLoop (endPos : Nat) : Nat → List Nat → Bool
  | offv, obs =>
    if offv < 2 * endPos + 1 then
      match obs with
      | [] => true
      | o :: rest =>
        if o % 2 = 0 then decide (endPos ≤ o / 2)
        else publishLoop endPos o rest
    else true

/-- Result of appendEntry: first component the returned entry position (none
models the null return), second component the position acquired by a
successful tryAcquire, which stays acquired in the page even when the
function then returns null. -/
def appendEntryObs (obs : AppendObs) (e : Nat) : Option Nat × Option Nat :=
  if obs.initOffset % 2 = 0 then (none, none)
  else
    match appendProbe obs.occ (obs.initOffset / 2) e with
    | none => (none, none)
    | some pos =>
      if publishLoop (pos + e) obs.initOffset obs.pubObs then (some pos, some pos)
      else (none, some pos)

/-- LogPage::append (lines 50-57): computes the padded entry size, rejects
oversize entries, then delegates to appendEntry. -/
def logPageAppend (obs : AppendObs) (size : Nat) : Option Nat × Option Nat :=
  let e := entrySizeFromSize size
  if e > MAX_ENTRY_SIZE then (none, none)
  else appendEntryObs obs e

/-- Fuel-out in appendProbeA coincides with the size-check exit whenever the
stated fuel invariant holds, so the fueled recursion is exactly the C++
loop; the invariant holds for the top-level fuel choice. -/
theorem appendProbeA_faithful (occ : Nat → Option Nat) (e : Nat) :
    ∀ fuel pos, MAX_ENTRY_SIZE < pos + 16 * fuel →
      appendProbeA occ e fuel pos =
        (if pos + e > MAX_ENTRY_SIZE then none
         else
           match occ pos with
           | none => some pos
           | some w => appendProbeA occ e (fuel - 1) (pos + entrySizeFromSize (w / 2))) := by
  intro fuel
  cases fuel with
  | zero =>
    intro pos h
    have : pos + e > MAX_ENTRY_SIZE := by omega
    simp [appendProbeA, this]
  | succ n =>
    intro pos h
    simp [appendProbeA]

/-! ### Case predicates of claim C2. -/

/-- Case (a): the page offset is observed sealed before acquisition. -/
def sealedBefore (obs : AppendObs) : Prop := obs.initOffset % 2 = 0

/-- Case (b): no position with pos + entrySize <= MAX_ENTRY_SIZE can be
acquired: the probe walk runs out of room before tryAcquire succeeds. -/
def noFit (obs : AppendObs) (e : Nat) : Prop :=
  appendProbe obs.occ (obs.initOffset / 2) e = none

/-- Case (c): the space was acquired at pos, but while the publish CAS loop
was still running (every earlier observation unsealed and below the target)
the page offset was observed sealed with stored position < pos + e. -/
def sealRaced (obs : AppendObs) (e : Nat) : Prop :=
  ∃ pos pre o suf,
    appendProbe obs.occ (obs.initOffset / 2) e = some pos ∧
    obs.pubObs = pre ++ o :: suf ∧
    obs.initOffset < 2 * (pos + e) + 1 ∧
    (∀ x ∈ pre, x % 2 = 1 ∧ x < 2 * (pos + e) + 1) ∧
    o % 2 = 0 ∧ o / 2 < pos + e

theorem publishLoop_false_iff (endPos : Nat) :
    ∀ obs offv, publishLoop endPos offv obs = false ↔
      offv < 2 * endPos + 1 ∧
      ∃ pre o suf, obs = pre ++ o :: suf ∧
        (∀ x ∈ pre, x % 2 = 1 ∧ x < 2 * endPos + 1) ∧
        o % 2 = 0 ∧ o / 2 < endPos := by
  intro obs
  induction obs with
  | nil =>
    intro offv
    simp only [publishLoop]
    constructor
    · intro h
      by_cases hlt : offv < 2 * endPos + 1 <;> simp [hlt] at h
    · rintro ⟨-, pre, o, suf, habs, -⟩
      exact absurd habs (by simp)
  | cons a rest ih =>
    intro offv
    simp only [publishLoop]
    by_cases hlt : offv < 2 * endPos + 1
    · simp only [if_pos hlt]
      by_cases hev : a % 2 = 0
      · simp only [if_pos hev]
        constructor
        · intro h
          refine ⟨hlt, [], a, rest, rfl, by simp, hev, ?_⟩
          simpa using h
        · rintro ⟨-, pre, o, suf, heq, hpre, hoev, holt⟩
          cases pre with
          | nil =>
            simp only [List.nil_append, List.cons.injEq] at heq
            obtain ⟨rfl, -⟩ := heq
            simp only [decide_eq_false_iff_not, not_le]
            exact holt
          | cons b pre' =>
            simp only [List.cons_append, List.cons.injEq] at heq
            obtain ⟨rfl, -⟩ := heq
            have hb := hpre a (by simp)
            exfalso
            omega
      · simp only [if_neg hev]
        rw [ih a]
        constructor
        · rintro ⟨halt, pre, o, suf, heq, hpre, hoev, holt⟩
          refine ⟨hlt, a :: pre, o, suf, by simp [heq], ?_, hoev, holt⟩
          intro x hx
          rcases List.mem_cons.1 hx with rfl | hx
          · exact ⟨by omega, halt⟩
          · exact hpre x hx
        · rintro ⟨-, pre, o, suf, heq, hpre, hoev, holt⟩
          cases pre with
          | nil =>
            simp only [List.nil_append, List.cons.injEq] at heq
            obtain ⟨rfl, -⟩ := heq
            exact absurd hoev hev
          | cons b pre' =>
            simp only [List.cons_append, List.cons.injEq] at heq
            obtain ⟨rfl, heq'⟩ := heq
            have hb := hpre a (by simp)
            refine ⟨hb.2, pre', o, suf, heq', ?_, hoev, holt⟩
            intro x hx
            exact hpre x (by simp [hx])
    · simp only [if_neg hlt]
      constructor
      · intro h
        exact absurd h (by simp)
      · rintro ⟨h, -⟩
        exact absurd h hlt

theorem appendProbeA_none_of_big {occ : Nat → Option Nat} {e : Nat} :
    ∀ fuel pos, MAX_ENTRY_SIZE < pos + e → appendProbeA occ e fuel pos = none := by
  intro fuel pos h
  cases fuel with
  | zero => rfl
  | succ n => simp [appendProbeA, h]

theorem appendProbeA_some {occ : Nat → Option Nat} {e : Nat} :
    ∀ fuel pos pos', appendProbeA occ e fuel pos = some pos' →
      occ pos' = none ∧ pos' + e ≤ MAX_ENTRY_SIZE := by
  intro fuel
  induction fuel with
  | zero => intro pos pos' h; simp [appendProbeA] at h
  | succ n ih =>
    intro pos pos' h
    simp only [appendProbeA] at h
    by_cases hg : MAX_ENTRY_SIZE < pos + e
    · simp [hg] at h
    · simp only [if_neg (by omega : ¬ pos + e > MAX_ENTRY_SIZE)] at h
      cases ho : occ pos with
      | none =>
        rw [ho] at h
        simp only [Option.some.injEq] at h
        subst h
        exact ⟨ho, by omega⟩
      | some w =>
        rw [ho] at h
        exact ih _ _ h

/-- C2: LogPage::append(payloadSize, type) returns null exactly when (a) the
page offset is observed sealed before acquisition, (b) no position with
pos + entrySize <= MAX_ENTRY_SIZE can be acquired, or (c) after a successful
acquisition the page offset is observed sealed with stored position below
pos + entrySize; otherwise it returns the acquired entry (an acquirable
fitting position).  In case (c), reached with the page initially unsealed,
the acquired bytes remain in the page as abandoned garbage of known size:
the entry was acquired at the probe position even though null is returned. -/
theorem logPageAppend_null_iff (obs : AppendObs) (size : Nat) :
    ((logPageAppend obs size).1 = none ↔
      sealedBefore obs ∨ noFit obs (entrySizeFromSize size) ∨
        sealRaced obs (entrySizeFromSize size)) ∧
    (∀ pos, (logPageAppend obs size).1 = some pos →
      appendProbe obs.occ (obs.initOffset / 2) (entrySizeFromSize size) = some pos ∧
      obs.occ pos = none ∧ pos + entrySizeFromSize size ≤ MAX_ENTRY_SIZE) ∧
    (¬ sealedBefore obs → sealRaced obs (entrySizeFromSize size) →
      ∃ pos,
        appendProbe obs.occ (obs.initOffset / 2) (entrySizeFromSize size) = some pos ∧
        logPageAppend obs size = (none, some pos)) := by
  by_cases hbig : entrySizeFromSize size > MAX_ENTRY_SIZE
  · have hnf : noFit obs (entrySizeFromSize size) :=
      appendProbeA_none_of_big probeFuel _ (by omega)
    have hval : logPageAppend obs size = (none, none) := by
      simp [logPageAppend, hbig]
    refine ⟨?_, ?_, ?_⟩
    · rw [hval]
      exact ⟨fun _ => Or.inr (Or.inl hnf), fun _ => rfl⟩
    · intro pos h
      rw [hval] at h
      exact absurd h (by simp)
    · rintro - ⟨pos, pre, o, suf, hp, -⟩
      have hnf2 : appendProbe obs.occ (obs.initOffset / 2) (entrySizeFromSize size) = none := hnf
      rw [hnf2] at hp
      exact absurd hp (by simp)
  · have hunf : logPageAppend obs size = appendEntryObs obs (entrySizeFromSize size) := by
      simp [logPageAppend, hbig]
    by_cases hs : obs.initOffset % 2 = 0
    · have hval : logPageAppend obs size = (none, none) := by
        rw [hunf]; simp [appendEntryObs, hs]
      refine ⟨?_, ?_, ?_⟩
      · rw [hval]
        exact ⟨fun _ => Or.inl hs, fun _ => rfl⟩
      · intro pos h
        rw [hval] at h
        exact absurd h (by simp)
      · intro hns
        exact absurd hs hns
    · cases hp : appendProbe obs.occ (obs.initOffset / 2) (entrySizeFromSize size) with
      | none =>
        have hval : logPageAppend obs size = (none, none) := by
          rw [hunf]
          simp only [appendEntryObs, if_neg hs]
          rw [show appendProbe obs.occ (obs.initOffset / 2) (entrySizeFromSize size)
                = none from hp]
        refine ⟨?_, ?_, ?_⟩
        · rw [hval]
          exact ⟨fun _ => Or.inr (Or.inl hp), fun _ => rfl⟩
        · intro pos h
          rw [hval] at h
          exact absurd h (by simp)
        · rintro - ⟨pos2, pre, o, suf, hp2, -⟩
          rw [hp] at hp2
          exact absurd hp2 (by simp)
      | some pos =>
        have hprobe := appendProbeA_some probeFuel _ _ hp
        cases hpub : publishLoop (pos + entrySizeFromSize size) obs.initOffset obs.pubObs with
        | false =>
          have hval : logPageAppend obs size = (none, some pos) := by
            rw [hunf]
            simp only [appendEntryObs, if_neg hs]
            rw [show appendProbe obs.occ (obs.initOffset / 2) (entrySizeFromSize size)
                  = some pos from hp]
            simp [hpub]
          obtain ⟨hlt, pre, o, suf, hobs, hpre, hoev, holt⟩ :=
            (publishLoop_false_iff (pos + entrySizeFromSize size) obs.pubObs obs.initOffset).1 hpub
          have hsr : sealRaced obs (entrySizeFromSize size) :=
            ⟨pos, pre, o, suf, hp, hobs, hlt, hpre, hoev, holt⟩
          refine ⟨?_, ?_, ?_⟩
          · rw [hval]
            exact ⟨fun _ => Or.inr (Or.inr hsr), fun _ => rfl⟩
          · intro pos' h
            rw [hval] at h
            exact absurd h (by simp)
          · intro _ _
            exact ⟨pos, rfl, hval⟩
        | true =>
          have hval : logPageAppend obs size = (some pos, some pos) := by
            rw [hunf]
            simp only [appendEntryObs, if_neg hs]
            rw [show appendProbe obs.occ (obs.initOffset / 2) (entrySizeFromSize size)
                  = some pos from hp]
            simp [hpub]
          have hnoC : ¬ sealRaced obs (entrySizeFromSize size) := by
            rintro ⟨pos2, pre, o, suf, hp', hobs, hlt, hpre, hoev, holt⟩
            rw [hp] at hp'
            simp only [Option.some.injEq] at hp'
            subst hp'
            have hf : publishLoop (pos + entrySizeFromSize size) obs.initOffset obs.pubObs
                = false :=
              (publishLoop_false_iff (pos + entrySizeFromSize size) obs.pubObs
                obs.initOffset).2 ⟨hlt, pre, o, suf, hobs, hpre, hoev, holt⟩
            rw [hpub] at hf
            exact absurd hf (by simp)
          refine ⟨?_, ?_, ?_⟩
          · rw [hval]
            constructor
            · intro h
              exact absurd h (by simp)
            · rintro (hA | hB | hC)
              · exact absurd hA hs
              · have hB2 : appendProbe obs.occ (obs.initOffset / 2) (entrySizeFromSize size)
                    = none := hB
                rw [hp] at hB2
                exact absurd hB2 (by simp)
              · exact absurd hC hnoC
          · intro pos' h
            rw [hval] at h
            simp only [Option.some.injEq] at h
            subst h
            exact ⟨rfl, hprobe.1, hprobe.2⟩
          · intro _ hC
            exact absurd hC hnoC

def obsC2 : AppendObs := ⟨1, fun _ => none, [16]⟩

theorem logPageAppend_null_iff_witness :
    ¬ sealedBefore obsC2 ∧ sealRaced obsC2 (entrySizeFromSize 16) ∧
    logPageAppend obsC2 16 = (none, some 0) := by
  have hns : ¬ sealedBefore obsC2 := by unfold sealedBefore; decide
  have hprobe : appendProbe obsC2.occ (obsC2.initOffset / 2) (entrySizeFromSize 16)
      = some 0 := by decide
  have hsr : sealRaced obsC2 (entrySizeFromSize 16) :=
    ⟨0, [], 16, [], hprobe, rfl, by decide, by simp, by decide, by decide⟩
  obtain ⟨pos, hp, hval⟩ := (logPageAppend_null_iff obsC2 16).2.2 hns hsr
  have hpos : pos = 0 := by
    have h0 := hp.symm.trans hprobe
    exact (Option.some.injEq _ _ ▸ h0)
  subst hpos
  exact ⟨hns, hsr, hval⟩

/-! ## RowStorePage garbage collection
(src/deltamain/rowstore/RowStorePage.cpp lines 63-169).

RowStorePage.hpp, Record.hpp and InsertMap.hpp are not under src/, so the
collaborators are modelled from the spec:

* a CDMRecord is self-describing: `size` is the byte length it occupies in
  the input page, `needsClean` the (abstracted) result of
  needsCleaning(lowestActiveVersion, insertMap), and `outSize` the bytes its
  compacted image occupies;
* `copyAndCompact` writes the compacted image and reports couldRelocate =
  true when it fits in the remaining space, and writes nothing and reports
  couldRelocate = false when the space is insufficient;
* `constructFillPage` allocates a fresh page if none is open, reserves the
  leading 8-byte used-count header and sets mFillOffset = 8 (allocation is
  modelled as never failing: nextFill is an unbounded arena counter);
* `markCurrentForDeletion` is observed through a counter of its calls;
* the hashTable Modifier records each insert(key, location, isRelocation)
  call, newest first; get(key) finds the newest entry for the key;
* the InsertMap is the list of pending per-key inserts in iteration order;
  begin() is the head, erase(begin()) drops it.

The input page is a function from byte offsets to the record read there,
together with the used byte count mSize; page walks advance by the record
sizes and are fuel-indexed. -/

def TELL_PAGE_SIZE : Nat := PAGE_SIZE

structure CDMRec where
  key : Nat
  size : Nat
  needsClean : Bool
  outSize : Nat
deriving DecidableEq

/-- Modelled from the spec: Record.cpp is not under src/.  Returns the pair
(bytes written, couldRelocate). -/
def copyAndCompact (r : CDMRec) (capacity : Nat) : Nat × Bool :=
  if r.outSize ≤ capacity then (r.outSize, true) else (0, false)

structure InsEntry where
  key : Nat
  outSize : Nat
deriving DecidableEq

/-- Modelled from the spec: the dummy-record copyAndCompact used by
fillWithInserts folds one insert; it fits or reports couldRelocate false. -/
def insCopyAndCompact (e : InsEntry) (capacity : Nat) : Nat × Bool :=
  if e.outSize ≤ capacity then (e.outSize, true) else (0, false)

structure HEntry where
  key : Nat
  page : Nat
  off : Nat
  reloc : Bool
deriving DecidableEq

def htGet (ht : List HEntry) (k : Nat) : Option HEntry :=
  ht.find? (fun h => h.key == k)

def htInsert (ht : List HEntry) (k p o : Nat) (r : Bool) : List HEntry :=
  ⟨k, p, o, r⟩ :: ht

structure GCState where
  startOffset : Nat
  fillPage : Option Nat
  fillOffset : Nat
  nextFill : Nat
  marked : Nat
  fillHeader : Nat → Option Nat
  writes : List (Nat × Nat × Nat)
  hashTable : List HEntry
  insertMap : List InsEntry

def constructFillPage (st : GCState) : GCState :=
  match st.fillPage with
  | some _ => st
  | none => { st with fillPage := some st.nextFill, nextFill := st.nextFill + 1,
                      fillOffset := 8 }

inductive GCRet where
  | inputPage : GCRet
  | fill (p : Nat) : GCRet
  | nullPtr : GCRet
deriving DecidableEq

/-- The record offsets the scan loop visits, with the walk's completion made
observable: none when the fuel runs out before offset reaches mSize. -/
def recWalk (page : Nat → CDMRec) (mSize : Nat) : Nat → Nat → Option (List Nat)
  | 0, offset => if offset < mSize then none else some []
  | fuel + 1, offset =>
    if offset < mSize then
      (recWalk page mSize fuel (offset + (page offset).size)).map (offset :: ·)
    else some []

/-- Scan phase (lines 73-80): looks for the first record that needs
cleaning. -/
def gcScanClean (page : Nat → CDMRec) (mSize : Nat) : Nat → Nat → Bool
  | 0, _ => false
  | fuel + 1, offset =>
    if offset < mSize then
      if (page offset).needsClean then true
      else gcScanClean page mSize fuel (offset + (page offset).size)
    else false

/-- Compact phase (lines 95-120).  Faithful to the source: when the fill
page is full the function finalizes and returns it WITHOUT updating
mStartOffset (the source never assigns mStartOffset). -/
def gcCompact (page : Nat → CDMRec) (mSize : Nat) :
    Nat → Nat → GCState → Option (GCState × GCRet × Bool)
  | 0, _, _ => none
  | fuel + 1, offset, st =>
    if offset < mSize then
      let r := page offset
      let fp := st.fillPage.getD 0
      let pos := st.fillOffset
      let res := copyAndCompact r (TELL_PAGE_SIZE - st.fillOffset)
      let st1 := { st with
        fillOffset := st.fillOffset + res.1,
        writes := if res.1 = 0 then st.writes else st.writes ++ [(fp, pos, res.1)] }
      if res.2 = false then
        let st2 := { st1 with
          fillHeader := fun q => if q = fp then some st1.fillOffset else st1.fillHeader q,
          fillPage := none }
        some (st2, GCRet.fill fp, false)
      else
        gcCompact page mSize fuel (offset + r.size)
          { st1 with hashTable := htInsert st1.hashTable r.key fp pos true }
    else some (st, GCRet.nullPtr, true)

/-- RowStorePage::gc (lines 63-121).  Returns (state, returned pointer,
done); none only when the page walk fuel is exhausted. -/
def gc (page : Nat → CDMRec) (mSize : Nat) (st : GCState) (fuel : Nat) :
    Option (GCState × GCRet × Bool) :=
  let hasToClean :=
    if st.startOffset ≠ 8 then true else gcScanClean page mSize fuel st.startOffset
  if hasToClean = false then some (st, GCRet.inputPage, true)
  else
    let st1 := if st.startOffset = 8 then { st with marked := st.marked + 1 } else st
    let st2 := constructFillPage st1
    gcCompact page mSize fuel st.startOffset st2

/-- The fillWithInserts loop (lines 138-164): iterates over the InsertMap,
dropping entries whose key the hashTable already contains, folding the rest
through the dummy record and stopping at the first insert that does not
fit.  The remaining InsertMap is stored back into the state. -/
def fwiAux : List InsEntry → GCState → GCState
  | [], st => { st with insertMap := [] }
  | e :: rest, st =>
    if (htGet st.hashTable e.key).isSome then fwiAux rest st
    else
      let fp := st.fillPage.getD 0
      let pos := st.fillOffset
      let res := insCopyAndCompact e (TELL_PAGE_SIZE - st.fillOffset)
      let st1 := { st with
        fillOffset := st.fillOffset + res.1,
        writes := if res.1 = 0 then st.writes else st.writes ++ [(fp, pos, res.1)] }
      if res.2 then
        fwiAux rest { st1 with hashTable := htInsert st1.hashTable e.key fp pos false }
      else { st1 with insertMap := e :: rest }

/-- RowStorePage::fillWithInserts (lines 123-169): constructs a fill page
if needed, folds the InsertMap, then always finalizes the fill page's
8-byte used-count header, returns the page and clears mFillPage. -/
def fillWithInserts (st : GCState) : GCState × GCRet :=
  let st1 := constructFillPage st
  let st2 := fwiAux st1.insertMap st1
  let fp := st2.fillPage.getD 0
  ({ st2 with
      fillHeader := fun q => if q = fp then some st2.fillOffset else st2.fillHeader q,
      fillPage := none },
   GCRet.fill fp)

theorem gcScanClean_eq_false {page : Nat → CDMRec} {mSize : Nat} :
    ∀ fuel offset offs, recWalk page mSize fuel offset = some offs →
      (∀ o ∈ offs, (page o).needsClean = false) →
      gcScanClean page mSize fuel offset = false := by
  intro fuel
  induction fuel with
  | zero => intro offset offs h hc; rfl
  | succ n ih =>
    intro offset offs h hc
    simp only [recWalk] at h
    simp only [gcScanClean]
    by_cases hlt : offset < mSize
    · simp only [if_pos hlt] at h ⊢
      cases hw : recWalk page mSize n (offset + (page offset).size) with
      | none => rw [hw] at h; simp at h
      | some offs' =>
        rw [hw] at h
        simp only [Option.map_some', Option.some.injEq] at h
        subst h
        have h0 := hc offset (by simp)
        rw [h0]
        simp only [if_neg (by simp : ¬ (false = true))]
        exact ih _ offs' hw (fun o ho => hc o (by simp [ho]))
    · simp [hlt]

/-- C4: on the first gc visit to a RowStorePage (mStartOffset = 8), when no
record on the page walk needs cleaning, gc sets done = true and returns the
input page with the state untouched: no page is marked for deletion and no
fill page is allocated. -/
theorem gc_clean_noop (page : Nat → CDMRec) (mSize : Nat) (st : GCState) (fuel : Nat)
    (offs : List Nat)
    (h8 : st.startOffset = 8)
    (hwalk : recWalk page mSize fuel 8 = some offs)
    (hclean : ∀ o ∈ offs, (page o).needsClean = false) :
    gc page mSize st fuel = some (st, GCRet.inputPage, true) := by
  have hscan : gcScanClean page mSize fuel 8 = false :=
    gcScanClean_eq_false fuel 8 offs hwalk hclean
  simp [gc, h8, hscan]

def pageC4 : Nat → CDMRec := fun o => ⟨o, 10, false, 0⟩

def stC4 : GCState := ⟨8, none, 0, 0, 0, fun _ => none, [], [], []⟩

theorem gc_clean_noop_witness :
    stC4.startOffset = 8 ∧ recWalk pageC4 28 5 8 = some [8, 18] ∧
    (∀ o ∈ [8, 18], (pageC4 o).needsClean = false) ∧
    gc pageC4 28 stC4 5 = some (stC4, GCRet.inputPage, true) :=
  ⟨rfl, by decide, by decide,
   gc_clean_noop pageC4 28 stC4 5 [8, 18] rfl (by decide) (by decide)⟩

/-! ### Claim C3: the failing resume.

The source gc returns the full fill page with done = false but never
assigns mStartOffset, so a subsequent call cannot resume at the record
that failed to relocate: it rescans from offset 8, marks the page for
deletion a second time, re-relocates the already-copied first record
(a duplicate relocation insert into the hashTable) and fails again at the
same record instead of completing with done = true.  The concrete page
below has two dirty records at offsets 8 and 18 whose compacted images
cannot share one fill page but fit one each. -/

def pageC3 : Nat → CDMRec := fun o =>
  if o = 8 then ⟨1, 10, true, 1000000⟩
  else if o = 18 then ⟨2, 10, true, 1097150⟩
  else ⟨0, 1, false, 0⟩

def stC3 : GCState := ⟨8, none, 0, 0, 0, fun _ => none, [], [], []⟩

/-- C3 fails on the code: the first gc call returns the finalized fill page
with done = false but leaves mStartOffset at 8; the second call with a
fresh fill page therefore starts again at offset 8 - it marks the page
again, relocates record 1 a second time (two hashTable entries for key 1)
and returns done = false at the same full-page point, where the claim
requires it to resume at offset 18 and complete with done = true. -/
theorem gc_never_resumes :
    ((gc pageC3 28 stC3 50).map fun r => r.1.startOffset) = some 8 ∧
    ((gc pageC3 28 stC3 50).map fun r => r.1.marked) = some 1 ∧
    ((gc pageC3 28 stC3 50).map fun r => r.1.fillPage) = some none ∧
    ((gc pageC3 28 stC3 50).map fun r => r.1.fillHeader 0) = some (some 1000008) ∧
    ((gc pageC3 28 stC3 50).map fun r => r.2.1) = some (GCRet.fill 0) ∧
    ((gc pageC3 28 stC3 50).map fun r => r.2.2) = some false ∧
    (((gc pageC3 28 stC3 50).bind fun r => gc pageC3 28 r.1 50).map fun r =>
        r.1.startOffset) = some 8 ∧
    (((gc pageC3 28 stC3 50).bind fun r => gc pageC3 28 r.1 50).map fun r =>
        r.1.marked) = some 2 ∧
    (((gc pageC3 28 stC3 50).bind fun r => gc pageC3 28 r.1 50).map fun r =>
        r.2.1) = some (GCRet.fill 1) ∧
    (((gc pageC3 28 stC3 50).bind fun r => gc pageC3 28 r.1 50).map fun r =>
        r.2.2) = some false ∧
    (((gc pageC3 28 stC3 50).bind fun r => gc pageC3 28 r.1 50).map fun r =>
        (r.1.hashTable.filter fun h => h.key == 1).length) = some 2 := by
  refine ⟨by decide, by decide, by decide, by decide, by decide, by decide,
    by decide, by decide, by decide, by decide, by decide⟩

theorem fwiAux_fillPage (m : List InsEntry) : ∀ st, (fwiAux m st).fillPage = st.fillPage := by
  induction m with
  | nil => intro st; rfl
  | cons e rest ih =>
    intro st
    simp only [fwiAux]
    by_cases h : (htGet st.hashTable e.key).isSome
    · simp only [if_pos h]; exact ih st
    · simp only [if_neg h]
      by_cases hfit : (insCopyAndCompact e (TELL_PAGE_SIZE - st.fillOffset)).2
      · simp only [if_pos hfit]; rw [ih]
      · simp only [if_neg hfit]

/-- C10: fillWithInserts always finalizes and returns the open fill page:
for every state (any insertMap, including an empty one or one whose head
does not fit) it returns the constructed fill page, writes the final
mFillOffset into that page's first 8 bytes, and leaves mFillPage null. -/
theorem fillWithInserts_finalizes (st : GCState) :
    (fillWithInserts st).2 = GCRet.fill ((constructFillPage st).fillPage.getD 0) ∧
    (fillWithInserts st).1.fillPage = none ∧
    (fillWithInserts st).1.fillHeader ((constructFillPage st).fillPage.getD 0)
      = some (fillWithInserts st).1.fillOffset := by
  have hfp : (fwiAux (constructFillPage st).insertMap (constructFillPage st)).fillPage
      = (constructFillPage st).fillPage := fwiAux_fillPage _ _
  refine ⟨?_, rfl, ?_⟩
  · simp only [fillWithInserts, hfp]
  · simp only [fillWithInserts, hfp]
    simp

theorem htGet_insert_self (ht : List HEntry) (k p o : Nat) (r : Bool) :
    (htGet (htInsert ht k p o r) k).isSome := by
  simp [htGet, htInsert, List.find?]

theorem htGet_cons_mono (ht : List HEntry) (x : HEntry) (k : Nat)
    (h : (htGet ht k).isSome) : (htGet (x :: ht) k).isSome := by
  simp only [htGet, List.find?]
  cases hx : (x.key == k) with
  | true => simp
  | false => exact h

theorem fwiAux_ht_mono (m : List InsEntry) : ∀ st k,
    (htGet st.hashTable k).isSome → (htGet (fwiAux m st).hashTable k).isSome := by
  induction m with
  | nil => intro st k h; exact h
  | cons e rest ih =>
    intro st k h
    simp only [fwiAux]
    by_cases hs : (htGet st.hashTable e.key).isSome
    · simp only [if_pos hs]; exact ih st k h
    · simp only [if_neg hs]
      by_cases hfit : (insCopyAndCompact e (TELL_PAGE_SIZE - st.fillOffset)).2
      · simp only [if_pos hfit]
        exact ih _ k (htGet_cons_mono _ _ _ h)
      · simp only [if_neg hfit]
        exact h

theorem fwiAux_reloc_false (m : List InsEntry) : ∀ st h,
    h ∈ (fwiAux m st).hashTable → h ∈ st.hashTable ∨ h.reloc = false := by
  induction m with
  | nil => intro st h hm; exact Or.inl hm
  | cons e rest ih =>
    intro st h hm
    simp only [fwiAux] at hm
    by_cases hs : (htGet st.hashTable e.key).isSome
    · rw [if_pos hs] at hm; exact ih st h hm
    · rw [if_neg hs] at hm
      by_cases hfit : (insCopyAndCompact e (TELL_PAGE_SIZE - st.fillOffset)).2
      · rw [if_pos hfit] at hm
        rcases ih _ h hm with hmem | hrel
        · rcases List.mem_cons.1 hmem with rfl | hmem'
          · exact Or.inr rfl
          · exact Or.inl hmem'
        · exact Or.inr hrel
      · rw [if_neg hfit] at hm
        exact Or.inl hm

theorem fwiAux_consumed (m : List InsEntry) : ∀ st,
    (fwiAux m st).insertMap = [] →
    ∀ e ∈ m, (htGet (fwiAux m st).hashTable e.key).isSome := by
  induction m with
  | nil => intro st _ e he; exact absurd he (by simp)
  | cons e0 rest ih =>
    intro st hdone e he
    simp only [fwiAux] at hdone ⊢
    by_cases hs : (htGet st.hashTable e0.key).isSome
    · rw [if_pos hs] at hdone ⊢
      rcases List.mem_cons.1 he with rfl | he'
      · exact fwiAux_ht_mono rest st e.key hs
      · exact ih st hdone e he'
    · rw [if_neg hs] at hdone ⊢
      by_cases hfit : (insCopyAndCompact e0 (TELL_PAGE_SIZE - st.fillOffset)).2
      · rw [if_pos hfit] at hdone ⊢
        rcases List.mem_cons.1 he with rfl | he'
        · exact fwiAux_ht_mono rest _ e.key (htGet_insert_self _ _ _ _ _)
        · exact ih _ hdone e he'
      · rw [if_neg hfit] at hdone
        exact absurd hdone (by simp)

theorem fwiAux_all_present (m : List InsEntry) : ∀ st,
    (∀ e ∈ m, (htGet st.hashTable e.key).isSome) →
    fwiAux m st = { st with insertMap := [] } := by
  induction m with
  | nil => intro st _; rfl
  | cons e rest ih =>
    intro st hall
    simp only [fwiAux, if_pos (hall e (by simp))]
    exact ih st (fun x hx => hall x (by simp [hx]))

theorem constructFillPage_insertMap (st : GCState) :
    (constructFillPage st).insertMap = st.insertMap := by
  cases h : st.fillPage <;> simp [constructFillPage, h]

theorem constructFillPage_hashTable (st : GCState) :
    (constructFillPage st).hashTable = st.hashTable := by
  cases h : st.fillPage <;> simp [constructFillPage, h]

theorem constructFillPage_writes (st : GCState) :
    (constructFillPage st).writes = st.writes := by
  cases h : st.fillPage <;> simp [constructFillPage, h]

theorem constructFillPage_of_none {st : GCState} (h : st.fillPage = none) :
    constructFillPage st
      = { st with fillPage := some st.nextFill, nextFill := st.nextFill + 1,
                  fillOffset := 8 } := by
  simp [constructFillPage, h]

/-- C5 (amended): every InsertMap entry whose key already has a location in
the hashTable is erased without writing to the fill page and without a
hashTable insert (the whole fold is unchanged by the entry); every entry
fillWithInserts adds to the hashTable carries the relocation flag false;
and provided the first run consumed the whole insertMap (did not stop early
on an insert that does not fit), running fillWithInserts a second time with
the same insertMap leaves the hashTable and the fill-page writes exactly as
after the first run. -/
theorem fillWithInserts_skip_idem :
    (∀ (st : GCState) (e : InsEntry) (rest : List InsEntry),
        (htGet st.hashTable e.key).isSome →
        fwiAux (e :: rest) st = fwiAux rest st) ∧
    (∀ (st : GCState) (h : HEntry), h ∈ (fillWithInserts st).1.hashTable →
        h ∈ st.hashTable ∨ h.reloc = false) ∧
    (∀ st : GCState, (fillWithInserts st).1.insertMap = [] →
        (fillWithInserts { (fillWithInserts st).1 with
            insertMap := st.insertMap }).1.hashTable
          = (fillWithInserts st).1.hashTable ∧
        (fillWithInserts { (fillWithInserts st).1 with
            insertMap := st.insertMap }).1.writes
          = (fillWithInserts st).1.writes) := by
  refine ⟨?_, ?_, ?_⟩
  · intro st e rest h
    simp [fwiAux, h]
  · intro st h hm
    have hm' : h ∈ (fwiAux (constructFillPage st).insertMap
        (constructFillPage st)).hashTable := hm
    rcases fwiAux_reloc_false _ _ h hm' with hmem | hrel
    · rw [constructFillPage_hashTable] at hmem
      exact Or.inl hmem
    · exact Or.inr hrel
  · intro st hdone
    have hd2 : (fwiAux (constructFillPage st).insertMap
        (constructFillPage st)).insertMap = [] := hdone
    have hpres := fwiAux_consumed _ _ hd2
    set st1 := (fillWithInserts st).1 with hst1
    set st2 : GCState := { st1 with insertMap := st.insertMap } with hst2
    have hfp2 : st2.fillPage = none := rfl
    have hc2 : constructFillPage st2
        = { st2 with fillPage := some st2.nextFill, nextFill := st2.nextFill + 1,
                     fillOffset := 8 } :=
      constructFillPage_of_none hfp2
    have hht2 : (constructFillPage st2).hashTable = st1.hashTable := by rw [hc2]
    have hmap2 : (constructFillPage st2).insertMap = st.insertMap := by rw [hc2]
    have hwrites2 : (constructFillPage st2).writes = st1.writes := by rw [hc2]
    have hall : ∀ e ∈ (constructFillPage st2).insertMap,
        (htGet (constructFillPage st2).hashTable e.key).isSome := by
      intro e he
      rw [hmap2] at he
      rw [hht2]
      have hmem : e ∈ (constructFillPage st).insertMap := by
        rw [constructFillPage_insertMap]; exact he
      exact hpres e hmem
    have hrun2 : fwiAux (constructFillPage st2).insertMap (constructFillPage st2)
        = { constructFillPage st2 with insertMap := [] } :=
      fwiAux_all_present _ _ hall
    constructor
    · show (fwiAux (constructFillPage st2).insertMap
          (constructFillPage st2)).hashTable = st1.hashTable
      rw [hrun2]
      exact hht2
    · show (fwiAux (constructFillPage st2).insertMap
          (constructFillPage st2)).writes = st1.writes
      rw [hrun2]
      exact hwrites2

def stW5a : GCState := ⟨8, none, 8, 0, 0, fun _ => none, [], [⟨5, 3, 4, false⟩], []⟩

def eW5 : InsEntry := ⟨5, 40⟩

def stW5b : GCState := ⟨8, none, 0, 0, 0, fun _ => none, [], [], [⟨7, 100⟩]⟩

theorem fillWithInserts_skip_idem_witness :
    fwiAux [eW5] stW5a = fwiAux [] stW5a ∧
    (fillWithInserts { (fillWithInserts stW5b).1 with
        insertMap := stW5b.insertMap }).1.hashTable
      = (fillWithInserts stW5b).1.hashTable :=
  ⟨fillWithInserts_skip_idem.1 stW5a eW5 [] (by decide),
   (fillWithInserts_skip_idem.2.2 stW5b (by decide)).1⟩

def stC5 : GCState :=
  ⟨8, none, 0, 0, 0, fun _ => none, [], [], [⟨1, 2097000⟩, ⟨2, 2097000⟩]⟩

/-- The unconditional claim fails on the code: with two pending inserts
whose images cannot share one fill page, the first fillWithInserts run
folds the first insert and stops early; a second run with the same
insertMap folds the second insert into a fresh fill page, so the hashTable
after two runs differs from the hashTable after one. -/
theorem fillWithInserts_not_idem :
    ¬ ((fillWithInserts (fillWithInserts stC5).1).1.hashTable
        = (fillWithInserts stC5).1.hashTable) := by decide

/-! ## UnorderedLogImpl::erase (src/util/Log.cpp lines 167-188).

State of the unordered log seen by erase: the next pointer of every page
(null modelled as none), the tail pointer, the page counter mPages (a 64
bit unsigned counter, fetch_sub wraps modulo 2^64) and the list of pages
handed to the deferred-free primitive.  Pages are identified by numbers;
a LogPage pointer is Option Nat with none for null. -/

structure UState where
  next : Nat → Option Nat
  tail : Nat
  pages : Nat
  freed : List Nat

/-- Walks the next chain from p until the pointer equals endp, collecting
the visited pages; none models the source dereferencing a null pointer or
a chain that does not reach endp within the fuel. -/
def chainCollect (next : Nat → Option Nat) : Nat → Option Nat → Option Nat → Option (List Nat)
  | 0, p, endp => if p = endp then some [] else none
  | fuel + 1, p, endp =>
    if p = endp then some []
    else
      match p with
      | none => none
      | some q => (chainCollect next fuel (next q) endp).map (q :: ·)

/-- UnorderedLogImpl::erase(begin, end): begin must not be null (source
assertion); if begin == end return; if end is null store begin into the
tail; exchange begin->next with end; if the previous next already equalled
end return; otherwise count the detached pages, subtract from mPages and
hand the segment to the deferred free. -/
def uerase (st : UState) (begin : Nat) (endp : Option Nat) (fuel : Nat) : Option UState :=
  if some begin = endp then some st
  else
    let st1 := if endp = none then { st with tail := begin } else st
    let nxt := st1.next begin
    let st2 := { st1 with next := fun q => if q = begin then endp else st1.next q }
    if nxt = endp then some st2
    else
      (chainCollect st2.next fuel nxt endp).map fun seg =>
        { st2 with
          pages := (st2.pages + (2 ^ 64 - seg.length % 2 ^ 64)) % 2 ^ 64,
          freed := st2.freed ++ seg }

/-- C8: erase detaches the segment between begin and end: when end is null
the tail is first set to begin; begin->next is exchanged with end; when the
previous next pointer already equalled end nothing is freed and the counter
is untouched; otherwise the pages from the old next up to but excluding end
are enqueued for deferred freeing and mPages drops by exactly their
number.  The chain hypothesis says the walk from the old next reaches end
within the fuel, and the counter hypotheses rule out wrap-around. -/
theorem uerase_spec (st : UState) (begin : Nat) (endp : Option Nat) (fuel : Nat) :
    (some begin = endp → uerase st begin endp fuel = some st) ∧
    (some begin ≠ endp → st.next begin = endp →
      uerase st begin endp fuel
        = some { (if endp = none then { st with tail := begin } else st) with
            next := fun q => if q = begin then endp
              else (if endp = none then { st with tail := begin } else st).next q }) ∧
    (∀ seg, some begin ≠ endp → st.next begin ≠ endp →
      chainCollect (fun q => if q = begin then endp else st.next q) fuel
          (st.next begin) endp = some seg →
      seg.length ≤ st.pages → st.pages < 2 ^ 64 →
      ∃ st', uerase st begin endp fuel = some st' ∧
        st'.next begin = endp ∧
        (endp = none → st'.tail = begin) ∧
        (endp ≠ none → st'.tail = st.tail) ∧
        st'.freed = st.freed ++ seg ∧
        st'.pages = st.pages - seg.length) := by
  refine ⟨?_, ?_, ?_⟩
  · intro h
    simp [uerase, h]
  · intro hne heq
    simp only [uerase, if_neg hne]
    have hnxt : (if endp = none then { st with tail := begin } else st).next begin = endp := by
      cases endp <;> simp [heq]
    rw [if_pos hnxt]
  · intro seg hne hnxt hchain hle hlt
    simp only [uerase, if_neg hne]
    have hnxt1 : (if endp = none then { st with tail := begin } else st).next begin
        = st.next begin := by
      cases endp <;> simp
    rw [hnxt1, if_neg hnxt]
    have hnext2 : (fun q => if q = begin then endp
        else (if endp = none then { st with tail := begin } else st).next q)
        = fun q => if q = begin then endp else st.next q := by
      funext q
      cases endp <;> simp
    rw [hnext2, hchain]
    refine ⟨_, rfl, ?_, ?_, ?_, ?_, ?_⟩
    · simp
    · intro h
      subst h
      simp
    · intro h
      cases endp with
      | none => exact absurd rfl h
      | some x => simp
    · cases endp <;> simp
    · have hpg : (if endp = none then { st with tail := begin } else st).pages
          = st.pages := by cases endp <;> simp
      simp only [hpg]
      have hmod : seg.length % 2 ^ 64 = seg.length := Nat.mod_eq_of_lt (by omega)
      rw [hmod]
      have hsplit : st.pages + (2 ^ 64 - seg.length)
          = (st.pages - seg.length) + 1 * 2 ^ 64 := by omega
      rw [hsplit, Nat.add_mul_mod_self_right]
      exact Nat.mod_eq_of_lt (by omega)

def uStW : UState :=
  ⟨fun q => if q = 1 then some 2 else if q = 2 then some 3 else none, 0, 3, []⟩

theorem uerase_spec_witness :
    ∃ st', uerase uStW 1 none 5 = some st' ∧
      st'.next 1 = none ∧ st'.tail = 1 ∧ st'.freed = [2, 3] ∧ st'.pages = 1 := by
  have h := (uerase_spec uStW 1 none 5).2.2 [2, 3] (by simp) (by decide) (by decide)
    (by decide) (by decide)
  obtain ⟨st', heq, hn, htail, -, hfreed, hpages⟩ := h
  exact ⟨st', heq, hn, htail rfl, hfreed, hpages⟩

/-! ## Sequential model of the OrderedLog (src/util/Log.cpp lines 251-453).

Pages are identified by their allocation order: createPage links each new
page as the next of the previous head and pages are never reinserted, so in
the sequential model the chain is page 0, 1, 2, ... and next p = p + 1
while p + 1 is allocated.  The state carries, for every page, the raw
atomic offset word ((bytesUsed <<< 1) ||| unsealedBit) and the raw size
word of every byte position of the data area (pages come zeroed from the
page manager); plus the head page, the sealed-head LogPosition, the tail
LogPosition and the pages handed to deferred reclamation (for
truncateLog).  Chain order is lexicographic (page, offset). -/

structure LogState where
  numPages : Nat
  pageOff : Nat → Nat
  data : Nat → Nat → Nat
  head : Nat
  shPage : Nat
  shOff : Nat
  tailPage : Nat
  tailOff : Nat
  freed : List Nat

def nextPage (st : LogState) (p : Nat) : Option Nat :=
  if p + 1 < st.numPages then some (p + 1) else none

def usedPos (st : LogState) (p : Nat) : Nat := st.pageOff p / 2

def setPageOff (st : LogState) (p w : Nat) : LogState :=
  { st with pageOff := fun q => if q = p then w else st.pageOff q }

def setData (st : LogState) (p o w : Nat) : LogState :=
  { st with data := fun q x => if q = p ∧ x = o then w else st.data q x }

/-- Entry start positions of a page: the walk from position pos reading the
size word at each cursor and advancing by entrySizeFromSize, while below
the used-bytes bound P.  Fueled with P - pos, which suffices because every
entry advances the cursor by at least 16. -/
def entryStartsA (d : Nat → Nat) (P : Nat) : Nat → Nat → List Nat
  | 0, _ => []
  | fuel + 1, pos =>
    if pos < P then pos :: entryStartsA d P fuel (pos + entrySizeFromSize (d pos / 2))
    else []

def entryStarts (d : Nat → Nat) (P pos : Nat) : List Nat :=
  entryStartsA d P (P - pos) pos

def starts (st : LogState) (p : Nat) : List Nat :=
  entryStarts (st.data p) (usedPos st p) 0

theorem entryStartsA_congr_fuel (d : Nat → Nat) (P : Nat) :
    ∀ f g pos, P - pos ≤ f → P - pos ≤ g →
      entryStartsA d P f pos = entryStartsA d P g pos := by
  intro f
  induction f with
  | zero =>
    intro g pos hf hg
    have hge : ¬ pos < P := by omega
    cases g with
    | zero => rfl
    | succ m => simp [entryStartsA, hge]
  | succ n ih =>
    intro g pos hf hg
    by_cases hlt : pos < P
    · have hg1 : 1 ≤ g := by omega
      cases g with
      | zero => omega
      | succ m =>
        simp only [entryStartsA, if_pos hlt]
        have he := le_entrySizeFromSize (d pos / 2)
        exact congrArg _ (ih m _ (by omega) (by omega))
    · cases g with
      | zero => simp [entryStartsA, hlt]
      | succ m => simp [entryStartsA, hlt]

theorem entryStarts_unfold (d : Nat → Nat) (P pos : Nat) :
    entryStarts d P pos =
      if pos < P then pos :: entryStarts d P (pos + entrySizeFromSize (d pos / 2))
      else [] := by
  by_cases hlt : pos < P
  · have h1 : P - pos = (P - pos - 1) + 1 := by omega
    unfold entryStarts
    rw [h1]
    simp only [entryStartsA, if_pos hlt, if_pos hlt]
    have he := le_entrySizeFromSize (d pos / 2)
    exact congrArg _ (entryStartsA_congr_fuel d P _ _ _ (by omega) (by omega))
  · unfold entryStarts
    have h0 : P - pos = 0 := by omega
    rw [h0]
    simp [entryStartsA, hlt]

theorem entryStartsA_mem {d : Nat → Nat} {P : Nat} :
    ∀ fuel pos q, q ∈ entryStartsA d P fuel pos → pos ≤ q ∧ q < P := by
  intro fuel
  induction fuel with
  | zero => intro pos q h; exact absurd h (by simp [entryStartsA])
  | succ n ih =>
    intro pos q h
    simp only [entryStartsA] at h
    by_cases hlt : pos < P
    · rw [if_pos hlt] at h
      rcases List.mem_cons.1 h with rfl | h'
      · exact ⟨le_refl _, hlt⟩
      · have := ih _ q h'
        have he := le_entrySizeFromSize (d pos / 2)
        exact ⟨by omega, this.2⟩
    · rw [if_neg hlt] at h
      exact absurd h (by simp)

theorem entryStarts_mem {d : Nat → Nat} {P pos q : Nat}
    (h : q ∈ entryStarts d P pos) : pos ≤ q ∧ q < P :=
  entryStartsA_mem _ pos q h

theorem entryStartsA_congr {d1 d2 : Nat → Nat} {P : Nat}
    (hd : ∀ y, y < P → d1 y / 2 = d2 y / 2) :
    ∀ fuel pos, entryStartsA d1 P fuel pos = entryStartsA d2 P fuel pos := by
  intro fuel
  induction fuel with
  | zero => intro pos; rfl
  | succ n ih =>
    intro pos
    by_cases hlt : pos < P
    · simp only [entryStartsA, if_pos hlt, hd pos hlt]
      exact congrArg _ (ih _)
    · simp [entryStartsA, hlt]

theorem entryStarts_congr {d1 d2 : Nat → Nat} {P pos : Nat}
    (hd : ∀ y, y < P → d1 y / 2 = d2 y / 2) :
    entryStarts d1 P pos = entryStarts d2 P pos :=
  entryStartsA_congr hd _ _

theorem entryStartsA_chain {d : Nat → Nat} {P : Nat} :
    ∀ fuel pos q, P - pos ≤ fuel → q ∈ entryStartsA d P fuel pos →
      q + entrySizeFromSize (d q / 2) < P →
      q + entrySizeFromSize (d q / 2) ∈ entryStartsA d P fuel pos := by
  intro fuel
  induction fuel with
  | zero => intro pos q hf h; exact absurd h (by simp [entryStartsA])
  | succ n ih =>
    intro pos q hf h hq
    simp only [entryStartsA] at h ⊢
    by_cases hlt : pos < P
    · rw [if_pos hlt] at h ⊢
      have he := le_entrySizeFromSize (d pos / 2)
      rcases List.mem_cons.1 h with rfl | h'
      · -- q is the head; its successor is the head of the tail walk
        refine List.mem_cons.2 (Or.inr ?_)
        have hrw := entryStarts_unfold d P (q + entrySizeFromSize (d q / 2))
        rw [if_pos hq] at hrw
        have h1 : entryStartsA d P n (q + entrySizeFromSize (d q / 2))
            = entryStarts d P (q + entrySizeFromSize (d q / 2)) :=
          entryStartsA_congr_fuel d P n _ _ (by omega) (le_refl _)
        rw [h1, hrw]
        exact List.mem_cons_self _ _
      · exact List.mem_cons.2 (Or.inr (ih _ q (by omega) h' hq))
    · rw [if_neg hlt] at h
      exact absurd h (by simp)

theorem entryStartsA_gap {d : Nat → Nat} {P : Nat} :
    ∀ fuel pos q1 q2, q1 ∈ entryStartsA d P fuel pos →
      q2 ∈ entryStartsA d P fuel pos → q1 < q2 →
      q1 + entrySizeFromSize (d q1 / 2) ≤ q2 := by
  intro fuel
  induction fuel with
  | zero => intro pos q1 q2 h1; exact absurd h1 (by simp [entryStartsA])
  | succ n ih =>
    intro pos q1 q2 h1 h2 hlt12
    simp only [entryStartsA] at h1 h2
    by_cases hlt : pos < P
    · rw [if_pos hlt] at h1 h2
      rcases List.mem_cons.1 h1 with rfl | h1'
      · rcases List.mem_cons.1 h2 with heq2 | h2'
        · omega
        · exact (entryStartsA_mem n _ q2 h2').1
      · rcases List.mem_cons.1 h2 with heq2 | h2'
        · have := (entryStartsA_mem n _ q1 h1').1
          have he := le_entrySizeFromSize (d pos / 2)
          omega
        · exact ih _ q1 q2 h1' h2' hlt12
    · rw [if_neg hlt] at h1
      exact absurd h1 (by simp)

theorem entryStartsA_mod16 {d : Nat → Nat} {P : Nat} :
    ∀ fuel pos q, pos % 16 = 0 → q ∈ entryStartsA d P fuel pos → q % 16 = 0 := by
  intro fuel
  induction fuel with
  | zero => intro pos q _ h; exact absurd h (by simp [entryStartsA])
  | succ n ih =>
    intro pos q hm h
    simp only [entryStartsA] at h
    by_cases hlt : pos < P
    · rw [if_pos hlt] at h
      rcases List.mem_cons.1 h with rfl | h'
      · exact hm
      · refine ih _ q ?_ h'
        have := entrySizeFromSize_mod16 (d pos / 2)
        omega
    · rw [if_neg hlt] at h
      exact absurd h (by simp)

theorem layout_end_mod16 {d : Nat → Nat} {P : Nat} :
    ∀ n pos, P - pos ≤ n → pos ≤ P → pos % 16 = 0 →
      (∀ q ∈ entryStarts d P pos, q + entrySizeFromSize (d q / 2) ≤ P) →
      P % 16 = 0 := by
  intro n
  induction n with
  | zero =>
    intro pos hn hle hm _
    have : pos = P := by omega
    omega
  | succ k ih =>
    intro pos hn hle hm hland
    by_cases hlt : pos < P
    · have hmem : pos ∈ entryStarts d P pos := by
        rw [entryStarts_unfold, if_pos hlt]; exact List.mem_cons_self _ _
      have hfit := hland pos hmem
      have he := le_entrySizeFromSize (d pos / 2)
      have hmod := entrySizeFromSize_mod16 (d pos / 2)
      refine ih (pos + entrySizeFromSize (d pos / 2)) (by omega) hfit (by omega) ?_
      intro q hq
      refine hland q ?_
      rw [entryStarts_unfold, if_pos hlt]
      exact List.mem_cons.2 (Or.inr hq)
    · have : pos = P := by omega
      omega

theorem entryStarts_one (d2 : Nat → Nat) (P2 pos : Nat) (h1 : pos < P2)
    (h2 : P2 ≤ pos + entrySizeFromSize (d2 pos / 2)) :
    entryStarts d2 P2 pos = [pos] := by
  rw [entryStarts_unfold, if_pos h1, entryStarts_unfold, if_neg (by omega)]

/-- Appending an entry of raw word w at the exact end P0 of a laid-out page
extends the entry starts by [P0]. -/
theorem entryStarts_extend (d : Nat → Nat) (P0 w : Nat) :
    ∀ n pos, P0 - pos ≤ n → pos ≤ P0 →
      (∀ q ∈ entryStarts d P0 pos, q + entrySizeFromSize (d q / 2) ≤ P0) →
      entryStarts (fun x => if x = P0 then w else d x)
          (P0 + entrySizeFromSize (w / 2)) pos
        = entryStarts d P0 pos ++ [P0] := by
  intro n
  induction n with
  | zero =>
    intro pos hn hle _
    have hpe : pos = P0 := by omega
    subst hpe
    have hew := le_entrySizeFromSize (w / 2)
    have hR : entryStarts d pos pos = [] := by
      rw [entryStarts_unfold, if_neg (by omega)]
    have hL : entryStarts (fun x => if x = pos then w else d x)
        (pos + entrySizeFromSize (w / 2)) pos = [pos] := by
      refine entryStarts_one _ _ _ (by omega) ?_
      simp
    rw [hL, hR]
    simp
  | succ k ih =>
    intro pos hn hle hland
    by_cases hlt : pos < P0
    · have hmem : pos ∈ entryStarts d P0 pos := by
        rw [entryStarts_unfold, if_pos hlt]; exact List.mem_cons_self _ _
      have hfit := hland pos hmem
      have he := le_entrySizeFromSize (d pos / 2)
      have hew := le_entrySizeFromSize (w / 2)
      have hland' : ∀ q ∈ entryStarts d P0 (pos + entrySizeFromSize (d pos / 2)),
          q + entrySizeFromSize (d q / 2) ≤ P0 := by
        intro q hq
        refine hland q ?_
        rw [entryStarts_unfold, if_pos hlt]
        exact List.mem_cons.2 (Or.inr hq)
      have hL : entryStarts (fun x => if x = P0 then w else d x)
          (P0 + entrySizeFromSize (w / 2)) pos
          = pos :: entryStarts (fun x => if x = P0 then w else d x)
              (P0 + entrySizeFromSize (w / 2)) (pos + entrySizeFromSize (d pos / 2)) := by
        rw [entryStarts_unfold, if_pos (by omega)]
        have hred : ((if pos = P0 then w else d pos) : Nat) = d pos := by
          simp [show pos ≠ P0 from by omega]
        rw [hred]
      have hRu : entryStarts d P0 pos
          = pos :: entryStarts d P0 (pos + entrySizeFromSize (d pos / 2)) := by
        rw [entryStarts_unfold, if_pos hlt]
      rw [hL, hRu, ih (pos + entrySizeFromSize (d pos / 2)) (by omega) hfit hland']
      simp
    · have hpe : pos = P0 := by omega
      subst hpe
      have hew := le_entrySizeFromSize (w / 2)
      have hR : entryStarts d pos pos = [] := by
        rw [entryStarts_unfold, if_neg (by omega)]
      have hL : entryStarts (fun x => if x = pos then w else d x)
          (pos + entrySizeFromSize (w / 2)) pos = [pos] := by
        refine entryStarts_one _ _ _ (by omega) ?_
        simp
      rw [hL, hR]
      simp

/-! ## advanceSealedHead (src/util/Log.cpp lines 348-453), sequentially.

Sequentially the publish CAS always succeeds and the post-publish
re-inspection reads the unchanged memory again, so the function reduces to
the inner scan: at each cursor read (size, sealed) of the current entry
(synthesised as (0, true) when no header fits before MAX_ENTRY_SIZE); stop
at an unsealed entry; skip a sealed entry; at a free word consult the page:
stop if the page is unsealed, cross to the next page if the stored offset
equals the cursor and the next page exists, stop if there is no next page.
The branch in which the page offset exceeds the cursor while the word is
free re-reads the same zero word and trips the source assertion
(LOG_ASSERT size != 0); it is modelled as halting at the cursor and proved
unreachable from invariant states. -/

inductive ScanDec where
  | stop : ScanDec
  | halt : ScanDec
  | skipEntry (o2 : Nat) : ScanDec
  | cross (p2 : Nat) : ScanDec
deriving DecidableEq

/-- The page-level decision taken when the current word is free (size 0):
lines 366-391 of the source. -/
def scanPageDecide (st : LogState) (p o : Nat) : ScanDec :=
  if st.pageOff p % 2 ≠ 0 then ScanDec.stop
  else if st.pageOff p / 2 > o then ScanDec.halt
  else
    match nextPage st p with
    | none => ScanDec.stop
    | some p2 => ScanDec.cross p2

/-- One decision of the scan at cursor (p, o): the (size, sealed) read is
(0, true) when no header fits before MAX_ENTRY_SIZE; an unsealed entry
stops the scan, a sealed nonzero entry is skipped, a free word defers to
the page decision. -/
def scanDecide (st : LogState) (p o : Nat) : ScanDec :=
  if o ≤ MAX_ENTRY_SIZE - LOG_ENTRY_SIZE then
    if st.data p o % 2 ≠ 0 then ScanDec.stop
    else if st.data p o / 2 ≠ 0 then
      ScanDec.skipEntry (o + entrySizeFromSize (st.data p o / 2))
    else scanPageDecide st p o
  else scanPageDecide st p o

def advanceScanA (st : LogState) : Nat → Nat → Nat → Nat × Nat
  | 0, p, o => (p, o)
  | fuel + 1, p, o =>
    match scanDecide st p o with
    | ScanDec.skipEntry o2 => advanceScanA st fuel p o2
    | ScanDec.cross p2 => advanceScanA st fuel p2 0
    | _ => (p, o)

def scanFuel (st : LogState) : Nat := (st.numPages + 1) * (MAX_ENTRY_SIZE + 2)

def advanceSealedHead (st : LogState) (p o : Nat) : Nat × Nat :=
  advanceScanA st (scanFuel st) p o

def applyScan (st : LogState) : LogState :=
  let r := advanceSealedHead st st.shPage st.shOff
  { st with shPage := r.1, shOff := r.2 }

theorem scanPageDecide_cross {st : LogState} {p o p2 : Nat}
    (h : scanPageDecide st p o = ScanDec.cross p2) :
    st.pageOff p % 2 = 0 ∧ st.pageOff p / 2 ≤ o ∧ nextPage st p = some p2 := by
  by_cases h1 : st.pageOff p % 2 ≠ 0
  · simp [scanPageDecide, h1] at h
  · by_cases h2 : st.pageOff p / 2 > o
    · simp [scanPageDecide, h1, h2] at h
    · simp only [scanPageDecide, if_neg h1, if_neg h2] at h
      cases hnx : nextPage st p with
      | none => rw [hnx] at h; simp at h
      | some q =>
        rw [hnx] at h
        simp only [ScanDec.cross.injEq] at h
        subst h
        exact ⟨by omega, by omega, rfl⟩

theorem scanPageDecide_not_skip {st : LogState} {p o o2 : Nat} :
    scanPageDecide st p o ≠ ScanDec.skipEntry o2 := by
  intro h
  by_cases h1 : st.pageOff p % 2 ≠ 0
  · simp [scanPageDecide, h1] at h
  · by_cases h2 : st.pageOff p / 2 > o
    · simp [scanPageDecide, h1, h2] at h
    · simp only [scanPageDecide, if_neg h1, if_neg h2] at h
      cases hnx : nextPage st p with
      | none => rw [hnx] at h; simp at h
      | some q => rw [hnx] at h; simp at h

theorem scanDecide_skip {st : LogState} {p o o2 : Nat}
    (h : scanDecide st p o = ScanDec.skipEntry o2) :
    o ≤ MAX_ENTRY_SIZE - LOG_ENTRY_SIZE ∧ st.data p o % 2 = 0 ∧
    st.data p o / 2 ≠ 0 ∧ o2 = o + entrySizeFromSize (st.data p o / 2) := by
  by_cases hle : o ≤ MAX_ENTRY_SIZE - LOG_ENTRY_SIZE
  · simp only [scanDecide, if_pos hle] at h
    by_cases h1 : st.data p o % 2 ≠ 0
    · simp [h1] at h
    · simp only [if_neg h1] at h
      by_cases h2 : st.data p o / 2 ≠ 0
      · simp only [if_pos h2, ScanDec.skipEntry.injEq] at h
        exact ⟨hle, by omega, h2, h.symm⟩
      · simp only [if_neg h2] at h
        exact absurd h scanPageDecide_not_skip
  · simp only [scanDecide, if_neg hle] at h
    exact absurd h scanPageDecide_not_skip

theorem scanDecide_cross {st : LogState} {p o p2 : Nat}
    (h : scanDecide st p o = ScanDec.cross p2) :
    st.pageOff p % 2 = 0 ∧ st.pageOff p / 2 ≤ o ∧ nextPage st p = some p2 ∧
    (o ≤ MAX_ENTRY_SIZE - LOG_ENTRY_SIZE →
      st.data p o % 2 = 0 ∧ st.data p o / 2 = 0) := by
  by_cases hle : o ≤ MAX_ENTRY_SIZE - LOG_ENTRY_SIZE
  · simp only [scanDecide, if_pos hle] at h
    by_cases h1 : st.data p o % 2 ≠ 0
    · simp [h1] at h
    · simp only [if_neg h1] at h
      by_cases h2 : st.data p o / 2 ≠ 0
      · simp [if_pos h2] at h
      · simp only [if_neg h2] at h
        have := scanPageDecide_cross h
        exact ⟨this.1, this.2.1, this.2.2, fun _ => ⟨by omega, by omega⟩⟩
  · simp only [scanDecide, if_neg hle] at h
    have := scanPageDecide_cross h
    exact ⟨this.1, this.2.1, this.2.2, fun hc => absurd hc hle⟩

theorem nextPage_eq {st : LogState} {p p2 : Nat} (h : nextPage st p = some p2) :
    p2 = p + 1 ∧ p + 1 < st.numPages := by
  unfold nextPage at h
  by_cases hlt : p + 1 < st.numPages
  · rw [if_pos hlt] at h
    simp only [Option.some.injEq] at h
    exact ⟨h.symm, hlt⟩
  · rw [if_neg hlt] at h
    exact absurd h (by simp)

def chainLe (a b : Nat × Nat) : Prop := a.1 < b.1 ∨ (a.1 = b.1 ∧ a.2 ≤ b.2)

theorem chainLe_refl (a : Nat × Nat) : chainLe a a := Or.inr ⟨rfl, le_refl _⟩

theorem chainLe_trans {a b c : Nat × Nat} (h1 : chainLe a b) (h2 : chainLe b c) :
    chainLe a c := by
  rcases h1 with h1 | ⟨h1, h1'⟩ <;> rcases h2 with h2 | ⟨h2, h2'⟩
  · exact Or.inl (by omega)
  · exact Or.inl (by omega)
  · exact Or.inl (by omega)
  · exact Or.inr ⟨by omega, by omega⟩

def scanMeasure (st : LogState) (p o : Nat) : Nat :=
  (st.numPages - p) * (MAX_ENTRY_SIZE + 2) + (MAX_ENTRY_SIZE + 1 - o)

theorem scanMeasure_skip {st : LogState} {p o o2 : Nat}
    (h : scanDecide st p o = ScanDec.skipEntry o2) :
    scanMeasure st p o2 < scanMeasure st p o := by
  obtain ⟨hle, -, -, ho2⟩ := scanDecide_skip h
  have he := le_entrySizeFromSize (st.data p o / 2)
  subst ho2
  unfold scanMeasure
  omega

theorem scanMeasure_cross {st : LogState} {p o p2 : Nat}
    (h : scanDecide st p o = ScanDec.cross p2) :
    scanMeasure st p2 0 < scanMeasure st p o := by
  obtain ⟨-, -, hnx, -⟩ := scanDecide_cross h
  obtain ⟨rfl, hlt⟩ := nextPage_eq hnx
  unfold scanMeasure
  have h1 : st.numPages - p = (st.numPages - (p + 1)) + 1 := by omega
  rw [h1, Nat.succ_mul]
  omega

theorem advanceScanA_blocked (st : LogState) :
    ∀ fuel p o, scanMeasure st p o ≤ fuel →
      scanDecide st (advanceScanA st fuel p o).1 (advanceScanA st fuel p o).2
          = ScanDec.stop ∨
      scanDecide st (advanceScanA st fuel p o).1 (advanceScanA st fuel p o).2
          = ScanDec.halt := by
  intro fuel
  induction fuel with
  | zero =>
    intro p o hm
    simp only [advanceScanA]
    cases hdec : scanDecide st p o with
    | skipEntry o2 => exact absurd (scanMeasure_skip hdec) (by omega)
    | cross p2 => exact absurd (scanMeasure_cross hdec) (by omega)
    | stop => exact Or.inl rfl
    | halt => exact Or.inr rfl
  | succ n ih =>
    intro p o hm
    simp only [advanceScanA]
    cases hdec : scanDecide st p o with
    | skipEntry o2 =>
      have hlt := scanMeasure_skip hdec
      show scanDecide st (advanceScanA st n p o2).1 (advanceScanA st n p o2).2
            = ScanDec.stop ∨
          scanDecide st (advanceScanA st n p o2).1 (advanceScanA st n p o2).2
            = ScanDec.halt
      exact ih p o2 (by omega)
    | cross p2 =>
      have hlt := scanMeasure_cross hdec
      show scanDecide st (advanceScanA st n p2 0).1 (advanceScanA st n p2 0).2
            = ScanDec.stop ∨
          scanDecide st (advanceScanA st n p2 0).1 (advanceScanA st n p2 0).2
            = ScanDec.halt
      exact ih p2 0 (by omega)
    | stop =>
      refine Or.inl ?_
      show scanDecide st p o = ScanDec.stop
      exact hdec
    | halt =>
      refine Or.inr ?_
      show scanDecide st p o = ScanDec.halt
      exact hdec

theorem scanMeasure_le_scanFuel (st : LogState) (p o : Nat) :
    scanMeasure st p o ≤ scanFuel st := by
  unfold scanMeasure scanFuel
  have h1 : st.numPages - p ≤ st.numPages := by omega
  have h2 : (st.numPages - p) * (MAX_ENTRY_SIZE + 2)
      ≤ st.numPages * (MAX_ENTRY_SIZE + 2) := Nat.mul_le_mul_right _ h1
  have h3 : (st.numPages + 1) * (MAX_ENTRY_SIZE + 2)
      = st.numPages * (MAX_ENTRY_SIZE + 2) + (MAX_ENTRY_SIZE + 2) := by
    rw [Nat.succ_mul]
  omega

theorem advanceSealedHead_blocked (st : LogState) (p o : Nat) :
    scanDecide st (advanceSealedHead st p o).1 (advanceSealedHead st p o).2
        = ScanDec.stop ∨
    scanDecide st (advanceSealedHead st p o).1 (advanceSealedHead st p o).2
        = ScanDec.halt :=
  advanceScanA_blocked st (scanFuel st) p o (scanMeasure_le_scanFuel st p o)

theorem advanceScanA_forward (st : LogState) :
    ∀ fuel p o, chainLe (p, o) (advanceScanA st fuel p o) := by
  intro fuel
  induction fuel with
  | zero => intro p o; exact chainLe_refl _
  | succ n ih =>
    intro p o
    simp only [advanceScanA]
    cases hdec : scanDecide st p o with
    | skipEntry o2 =>
      obtain ⟨-, -, -, ho2⟩ := scanDecide_skip hdec
      have he := le_entrySizeFromSize (st.data p o / 2)
      show chainLe (p, o) (advanceScanA st n p o2)
      exact chainLe_trans (b := (p, o2)) (Or.inr ⟨rfl, by omega⟩) (ih p o2)
    | cross p2 =>
      obtain ⟨-, -, hnx, -⟩ := scanDecide_cross hdec
      obtain ⟨rfl, -⟩ := nextPage_eq hnx
      show chainLe (p, o) (advanceScanA st n (p + 1) 0)
      exact chainLe_trans (b := (p + 1, 0)) (Or.inl (by omega)) (ih (p + 1) 0)
    | stop => exact chainLe_refl _
    | halt => exact chainLe_refl _

theorem advanceSealedHead_forward (st : LogState) (p o : Nat) :
    chainLe (p, o) (advanceSealedHead st p o) :=
  advanceScanA_forward st (scanFuel st) p o

/-! ## The sequential operations of the ordered log. -/

/-- LogPage::appendEntry (lines 59-107) in the sequential model: the skip
loop over occupied headers runs on the page data, and the publish CAS
succeeds against the offset just read (no other thread moves it), raising
the offset to ((pos + entrySize) <<< 1) ||| 1 when that is larger.  Fueled
structurally; MAX_ENTRY_SIZE + 2 iterations always suffice because each
collision advances the position by at least 16 within the page. -/
def pageAppendA (st : LogState) (p size e : Nat) : Nat → Nat → Option (LogState × Nat)
  | 0, _ => none
  | fuel + 1, pos =>
    if pos + e > MAX_ENTRY_SIZE then none
    else if st.data p pos ≠ 0 then
      pageAppendA st p size e fuel (pos + entrySizeFromSize (st.data p pos / 2))
    else
      let st1 := setData st p pos (2 * size + 1)
      let nOff := 2 * (pos + e) + 1
      let st2 := if st1.pageOff p < nOff then setPageOff st1 p nOff else st1
      some (st2, pos)

def pageAppend (st : LogState) (p size e : Nat) : Option (LogState × Nat) :=
  if st.pageOff p % 2 = 0 then none
  else pageAppendA st p size e (MAX_ENTRY_SIZE + 2) (st.pageOff p / 2)

/-- OrderedLogImpl::createPage (lines 305-346) sequentially: if the head
already has a next page, move the head forward; otherwise seal the head,
acquire a fresh zeroed page (the arena is modelled unbounded, and pages
come back zeroed from the page manager), link and publish it, and advance
the sealed head if it was pinned at the end of the old head. -/
def createPageOp (st : LogState) : LogState :=
  let oldHead := st.head
  match nextPage st oldHead with
  | some n => { st with head := n }
  | none =>
    let st1 := setPageOff st oldHead (2 * (st.pageOff oldHead / 2))
    let newId := st1.numPages
    let st2 := { setPageOff st1 newId 1 with numPages := st1.numPages + 1 }
    let st3 := { st2 with head := newId }
    if st3.shPage = oldHead ∧ st3.shOff = usedPos st3 oldHead then applyScan st3
    else st3

/-- OrderedLogImpl::seal (lines 264-273): clear the entry's acquired bit;
if the sealed head points exactly at this entry, advance it.  The guard
expresses the caller contract that the argument is a LogEntry pointer
previously returned by append (an entry start of a valid page); for any
other argument the operation is a no-op in the model. -/
def sealEntryOp (st : LogState) (p o : Nat) : LogState :=
  if p < st.numPages ∧ o ∈ starts st p then
    let st1 := setData st p o (2 * (st.data p o / 2))
    if st1.shPage = p ∧ st1.shOff = o then applyScan st1 else st1
  else st

/-- The appendEntry retry loop of OrderedLogImpl (lines 288-303):
sequentially a single createPage always succeeds, so two iterations
suffice for any entry that fits a page. -/
def olAppendA (st : LogState) (size e : Nat) : Nat → LogState
  | 0 => st
  | fuel + 1 =>
    match pageAppend st st.head size e with
    | some (st1, _) => st1
    | none => olAppendA (createPageOp st) size e fuel

/-- Log::append (lines 469-477): reject oversize entries, else run the
appendEntry loop.  The size = 0 guard models LOG_ASSERT(size != 0) in
tryAcquire. -/
def appendOp (st : LogState) (size : Nat) : LogState :=
  if size = 0 then st
  else
    let e := entrySizeFromSize size
    if e > MAX_ENTRY_SIZE then st
    else olAppendA st size e 2

inductive LogOp where
  | append (size : Nat) : LogOp
  | sealEntry (p o : Nat) : LogOp
  | mkPage : LogOp

def logStep (st : LogState) : LogOp → LogState
  | LogOp.append size => appendOp st size
  | LogOp.sealEntry p o => sealEntryOp st p o
  | LogOp.mkPage => createPageOp st

/-- Constructor state (lines 251-262): one empty unsealed page, sealed head
and tail at its position 0. -/
def initLog : LogState :=
  { numPages := 1, pageOff := fun _ => 1, data := fun _ _ => 0, head := 0,
    shPage := 0, shOff := 0, tailPage := 0, tailOff := 0, freed := [] }

def logRun (ops : List LogOp) : LogState := ops.foldl logStep initLog

def shPos (st : LogState) : Nat × Nat := (st.shPage, st.shOff)

/-- The sequential invariant of the ordered log. -/
structure LogInv (st : LogState) : Prop where
  pos_pages : 0 < st.numPages
  head_last : st.head = st.numPages - 1
  fresh_off : ∀ p, st.numPages ≤ p → st.pageOff p = 1
  fresh_data : ∀ p o, st.numPages ≤ p → st.data p o = 0
  head_unsealed : st.pageOff st.head % 2 = 1
  old_sealed : ∀ p, p < st.numPages → p ≠ st.head → st.pageOff p % 2 = 0
  used_le : ∀ p, p < st.numPages → usedPos st p ≤ MAX_ENTRY_SIZE
  layout_lo : ∀ p, p < st.numPages → ∀ q ∈ starts st p, 2 ≤ st.data p q
  layout_fit : ∀ p, p < st.numPages → ∀ q ∈ starts st p,
      q + entrySizeFromSize (st.data p q / 2) ≤ usedPos st p
  free_zero : ∀ p o, p < st.numPages → usedPos st p ≤ o → st.data p o = 0
  sh_page : st.shPage < st.numPages
  sh_bound : st.shOff ∈ starts st st.shPage ∨ st.shOff = usedPos st st.shPage
  prefix_sealed : ∀ p q, p < st.numPages → q ∈ starts st p →
      (p < st.shPage ∨ (p = st.shPage ∧ q < st.shOff)) → st.data p q % 2 = 0

def scanBoundary (st : LogState) (p o : Nat) : Prop :=
  o ∈ starts st p ∨ o = usedPos st p

def prefixSealed (st : LogState) (p o : Nat) : Prop :=
  ∀ p2 q, p2 < st.numPages → q ∈ starts st p2 →
    (p2 < p ∨ (p2 = p ∧ q < o)) → st.data p2 q % 2 = 0

theorem LogInv.start_le_max {st : LogState} (h : LogInv st) {p q : Nat}
    (hp : p < st.numPages) (hq : q ∈ starts st p) :
    q + 32 ≤ MAX_ENTRY_SIZE ∧ q ≤ MAX_ENTRY_SIZE - LOG_ENTRY_SIZE := by
  have hlo := h.layout_lo p hp q hq
  have hfit := h.layout_fit p hp q hq
  have hle := h.used_le p hp
  have he : 32 ≤ entrySizeFromSize (st.data p q / 2) :=
    le32_entrySizeFromSize (by omega)
  have hL : LOG_ENTRY_SIZE = 16 := rfl
  omega

theorem scanPageDecide_halt {st : LogState} {p o : Nat}
    (h : scanPageDecide st p o = ScanDec.halt) :
    st.pageOff p % 2 = 0 ∧ o < st.pageOff p / 2 := by
  by_cases h1 : st.pageOff p % 2 ≠ 0
  · simp [scanPageDecide, h1] at h
  · by_cases h2 : st.pageOff p / 2 > o
    · exact ⟨by omega, h2⟩
    · simp only [scanPageDecide, if_neg h1, if_neg h2] at h
      cases hnx : nextPage st p with
      | none => rw [hnx] at h; simp at h
      | some q => rw [hnx] at h; simp at h

theorem scanDecide_halt {st : LogState} {p o : Nat}
    (h : scanDecide st p o = ScanDec.halt) :
    st.pageOff p % 2 = 0 ∧ o < st.pageOff p / 2 ∧
    (o ≤ MAX_ENTRY_SIZE - LOG_ENTRY_SIZE → st.data p o % 2 = 0 ∧ st.data p o / 2 = 0) := by
  by_cases hle : o ≤ MAX_ENTRY_SIZE - LOG_ENTRY_SIZE
  · simp only [scanDecide, if_pos hle] at h
    by_cases h1 : st.data p o % 2 ≠ 0
    · simp [h1] at h
    · simp only [if_neg h1] at h
      by_cases h2 : st.data p o / 2 ≠ 0
      · simp [if_pos h2] at h
      · simp only [if_neg h2] at h
        have hh := scanPageDecide_halt h
        exact ⟨hh.1, hh.2, fun _ => ⟨by omega, by omega⟩⟩
  · simp only [scanDecide, if_neg hle] at h
    have hh := scanPageDecide_halt h
    exact ⟨hh.1, hh.2, fun hc => absurd hc hle⟩

/-- Under the invariant, a boundary cursor can only read a free word when
it sits exactly at the used end of the page. -/
theorem boundary_free_is_end {st : LogState} (h : LogInv st) {p o : Nat}
    (hp : p < st.numPages) (hb : scanBoundary st p o)
    (hfree : o ≤ MAX_ENTRY_SIZE - LOG_ENTRY_SIZE → st.data p o / 2 = 0) :
    o = usedPos st p := by
  rcases hb with hmem | hend
  · have hlo := h.layout_lo p hp o hmem
    have hle := (h.start_le_max hp hmem).2
    have := hfree hle
    omega
  · exact hend

/-- Under the invariant, the halt branch (assertion failure in the source)
is unreachable from a boundary cursor. -/
theorem scanDecide_no_halt {st : LogState} (h : LogInv st) {p o : Nat}
    (hp : p < st.numPages) (hb : scanBoundary st p o) :
    scanDecide st p o ≠ ScanDec.halt := by
  intro hh
  obtain ⟨hev, hgt, hfree⟩ := scanDecide_halt hh
  have hend := boundary_free_is_end h hp hb (fun hle => (hfree hle).2)
  unfold usedPos at hend
  omega

/-- C1 cross characterization core: from a boundary cursor the scan crosses
to the next page only when the page is sealed and its stored offset equals
the cursor offset. -/
theorem scanDecide_cross_char {st : LogState} (h : LogInv st) {p o p2 : Nat}
    (hp : p < st.numPages) (hb : scanBoundary st p o)
    (hc : scanDecide st p o = ScanDec.cross p2) :
    st.pageOff p % 2 = 0 ∧ usedPos st p = o ∧ nextPage st p = some p2 := by
  obtain ⟨hev, hle, hnx, hfree⟩ := scanDecide_cross hc
  have hend := boundary_free_is_end h hp hb (fun hle2 => (hfree hle2).2)
  exact ⟨hev, hend.symm, hnx⟩

theorem scanDecide_skip_char {st : LogState} (h : LogInv st) {p o o2 : Nat}
    (hp : p < st.numPages) (hb : scanBoundary st p o)
    (hs : scanDecide st p o = ScanDec.skipEntry o2) :
    o ∈ starts st p ∧ st.data p o % 2 = 0 ∧ o < o2 ∧ scanBoundary st p o2 := by
  obtain ⟨hle, hsl, hsz, ho2⟩ := scanDecide_skip hs
  have hmem : o ∈ starts st p := by
    rcases hb with hmem | hend
    · exact hmem
    · exfalso
      have := h.free_zero p o hp (by omega)
      omega
  have hfit := h.layout_fit p hp o hmem
  have he := le_entrySizeFromSize (st.data p o / 2)
  refine ⟨hmem, hsl, by omega, ?_⟩
  by_cases hlt : o2 < usedPos st p
  · left
    have hchain := entryStartsA_chain (d := st.data p) (P := usedPos st p)
      (usedPos st p - 0) 0 o (by omega) hmem (by omega)
    rw [← ho2] at hchain
    exact hchain
  · right
    omega

theorem advanceScanA_inv {st : LogState} (h : LogInv st) :
    ∀ fuel p o, p < st.numPages → scanBoundary st p o → prefixSealed st p o →
      (advanceScanA st fuel p o).1 < st.numPages ∧
      scanBoundary st (advanceScanA st fuel p o).1 (advanceScanA st fuel p o).2 ∧
      prefixSealed st (advanceScanA st fuel p o).1 (advanceScanA st fuel p o).2 := by
  intro fuel
  induction fuel with
  | zero => intro p o hp hb hps; exact ⟨hp, hb, hps⟩
  | succ n ih =>
    intro p o hp hb hps
    simp only [advanceScanA]
    cases hdec : scanDecide st p o with
    | stop => exact ⟨hp, hb, hps⟩
    | halt => exact ⟨hp, hb, hps⟩
    | skipEntry o2 =>
      obtain ⟨hmem, hsl, hlt, hb2⟩ := scanDecide_skip_char h hp hb hdec
      obtain ⟨-, -, -, ho2⟩ := scanDecide_skip hdec
      have hps2 : prefixSealed st p o2 := by
        intro p3 q hp3 hq hcond
        rcases hcond with hcond | ⟨rfl, hqlt⟩
        · exact hps p3 q hp3 hq (Or.inl hcond)
        · rcases Nat.lt_trichotomy q o with hq1 | rfl | hq3
          · exact hps p3 q hp3 hq (Or.inr ⟨rfl, hq1⟩)
          · exact hsl
          · exfalso
            have hgap := entryStartsA_gap (d := st.data p3) (P := usedPos st p3)
              (usedPos st p3 - 0) 0 o q hmem hq hq3
            omega
      exact ih p o2 hp hb2 hps2
    | cross p2 =>
      obtain ⟨hev, hend, hnx⟩ := scanDecide_cross_char h hp hb hdec
      obtain ⟨rfl, hp2⟩ := nextPage_eq hnx
      have hb2 : scanBoundary st (p + 1) 0 := by
        by_cases h0 : 0 < usedPos st (p + 1)
        · left
          rw [show starts st (p + 1)
              = entryStarts (st.data (p + 1)) (usedPos st (p + 1)) 0 from rfl]
          rw [entryStarts_unfold, if_pos h0]
          exact List.mem_cons_self _ _
        · right
          omega
      have hps2 : prefixSealed st (p + 1) 0 := by
        intro p3 q hp3 hq hcond
        rcases hcond with hcond | ⟨rfl, hqlt⟩
        · by_cases hp3p : p3 < p
          · exact hps p3 q hp3 hq (Or.inl hp3p)
          · have : p3 = p := by omega
            subst this
            have := entryStarts_mem hq
            exact hps p3 q hp3 hq (Or.inr ⟨rfl, by omega⟩)
        · omega
      exact ih (p + 1) 0 hp2 hb2 hps2

theorem applyScan_fields (st : LogState) :
    (applyScan st).numPages = st.numPages ∧ (applyScan st).data = st.data ∧
    (applyScan st).pageOff = st.pageOff ∧ (applyScan st).head = st.head ∧
    (applyScan st).tailPage = st.tailPage ∧ (applyScan st).tailOff = st.tailOff ∧
    (applyScan st).freed = st.freed :=
  ⟨rfl, rfl, rfl, rfl, rfl, rfl, rfl⟩

theorem applyScan_inv {st : LogState} (h : LogInv st) : LogInv (applyScan st) := by
  have hmain := advanceScanA_inv h (scanFuel st) st.shPage st.shOff
    h.sh_page h.sh_bound h.prefix_sealed
  refine ⟨h.pos_pages, h.head_last, h.fresh_off, h.fresh_data, h.head_unsealed,
    h.old_sealed, h.used_le, h.layout_lo, h.layout_fit, h.free_zero,
    ?_, ?_, ?_⟩
  · exact hmain.1
  · exact hmain.2.1
  · exact hmain.2.2

theorem setData_starts (st : LogState) (p o w : Nat)
    (hw : w / 2 = st.data p o / 2) :
    ∀ q, starts (setData st p o w) q = starts st q := by
  intro q
  show entryStarts (fun x => if q = p ∧ x = o then w else st.data q x)
      (usedPos st q) 0 = entryStarts (st.data q) (usedPos st q) 0
  refine entryStarts_congr ?_
  intro y _
  by_cases hy : q = p ∧ y = o
  · rw [if_pos hy, hw, hy.1, hy.2]
  · rw [if_neg hy]

theorem sealEntryOp_inv {st : LogState} (h : LogInv st) (p o : Nat) :
    LogInv (sealEntryOp st p o) := by
  unfold sealEntryOp
  by_cases hg : p < st.numPages ∧ o ∈ starts st p
  · rw [if_pos hg]
    obtain ⟨hp, ho⟩ := hg
    have hlo := h.layout_lo p hp o ho
    have homem := entryStarts_mem ho
    have hw : (2 * (st.data p o / 2)) / 2 = st.data p o / 2 := by omega
    have hst : ∀ q, starts (setData st p o (2 * (st.data p o / 2))) q = starts st q :=
      setData_starts st p o _ hw
    have hdata : ∀ q x, (setData st p o (2 * (st.data p o / 2))).data q x
        = if q = p ∧ x = o then 2 * (st.data p o / 2) else st.data q x := fun q x => rfl
    have hinv1 : LogInv (setData st p o (2 * (st.data p o / 2))) := by
      refine ⟨h.pos_pages, h.head_last, h.fresh_off, ?_, h.head_unsealed,
        h.old_sealed, h.used_le, ?_, ?_, ?_, h.sh_page, ?_, ?_⟩
      · intro q x hq
        have hq2 : st.numPages ≤ q := hq
        rw [hdata]
        have : ¬ (q = p ∧ x = o) := by
          rintro ⟨rfl, -⟩
          omega
        rw [if_neg this]
        exact h.fresh_data q x hq2
      · intro q hq x hx
        rw [hst] at hx
        rw [hdata]
        by_cases hqx : q = p ∧ x = o
        · rw [if_pos hqx]
          omega
        · rw [if_neg hqx]
          exact h.layout_lo q hq x hx
      · intro q hq x hx
        rw [hst] at hx
        show x + entrySizeFromSize ((setData st p o (2 * (st.data p o / 2))).data q x / 2)
            ≤ usedPos st q
        rw [hdata]
        by_cases hqx : q = p ∧ x = o
        · obtain ⟨rfl, rfl⟩ := hqx
          rw [if_pos ⟨rfl, rfl⟩, hw]
          exact h.layout_fit q hq x hx
        · rw [if_neg hqx]
          exact h.layout_fit q hq x hx
      · intro q x hq hx
        rw [hdata]
        have : ¬ (q = p ∧ x = o) := by
          rintro ⟨rfl, rfl⟩
          show False
          have hlt := homem.2
          have : usedPos st q ≤ x := hx
          omega
        rw [if_neg this]
        exact h.free_zero q x hq hx
      · show st.shOff ∈ starts (setData st p o (2 * (st.data p o / 2))) st.shPage
            ∨ st.shOff = usedPos st st.shPage
        rw [hst]
        exact h.sh_bound
      · intro p2 q hp2 hq hcond
        rw [hst] at hq
        rw [hdata]
        by_cases hqx : p2 = p ∧ q = o
        · rw [if_pos hqx]
          omega
        · rw [if_neg hqx]
          exact h.prefix_sealed p2 q hp2 hq hcond
    by_cases hsh : (setData st p o (2 * (st.data p o / 2))).shPage = p ∧
        (setData st p o (2 * (st.data p o / 2))).shOff = o
    · rw [if_pos hsh]
      exact applyScan_inv hinv1
    · rw [if_neg hsh]
      exact hinv1
  · rw [if_neg hg]
    exact h

theorem createPageOp_main {st : LogState} (h : LogInv st) :
    LogInv (createPageOp st) ∧ (createPageOp st).head = st.numPages ∧
    (createPageOp st).pageOff st.numPages = 1 ∧
    (createPageOp st).numPages = st.numPages + 1 ∧
    (createPageOp st).data = st.data := by
  have hpp := h.pos_pages
  have hhl := h.head_last
  have hnx : nextPage st st.head = none := by
    unfold nextPage
    rw [if_neg (by omega)]
  let P3 : LogState :=
    { numPages := st.numPages + 1,
      pageOff := (fun q => if q = st.numPages then 1
        else if q = st.head then 2 * (st.pageOff st.head / 2) else st.pageOff q),
      data := st.data, head := st.numPages, shPage := st.shPage, shOff := st.shOff,
      tailPage := st.tailPage, tailOff := st.tailOff, freed := st.freed }
  have hgoal : createPageOp st
      = (if st.shPage = st.head ∧ st.shOff = usedPos P3 st.head then applyScan P3
         else P3) := by
    unfold createPageOp
    simp only [hnx]
    rfl
  have hoff : ∀ q, P3.pageOff q = if q = st.numPages then 1
      else if q = st.head then 2 * (st.pageOff st.head / 2) else st.pageOff q :=
    fun q => rfl
  have husd : ∀ q, q < st.numPages → usedPos P3 q = usedPos st q := by
    intro q hq
    unfold usedPos
    rw [hoff]
    rw [if_neg (by omega)]
    by_cases hqh : q = st.head
    · subst hqh
      rw [if_pos rfl]
      omega
    · rw [if_neg hqh]
  have hstarts : ∀ q, q < st.numPages → starts P3 q = starts st q := by
    intro q hq
    unfold starts
    rw [husd q hq]
  have hstartsN : starts P3 st.numPages = [] := by
    unfold starts
    have : usedPos P3 st.numPages = 0 := by
      unfold usedPos
      rw [hoff, if_pos rfl]
    rw [this, entryStarts_unfold, if_neg (by omega)]
  have hinv3 : LogInv P3 := by
    have hhd : st.head < st.numPages := by omega
    refine ⟨?_, ?_, ?_, ?_, ?_, ?_, ?_, ?_, ?_, ?_, ?_, ?_, ?_⟩
    · show 0 < st.numPages + 1
      omega
    · show st.numPages = st.numPages + 1 - 1
      omega
    · intro p hp
      have hp2 : st.numPages + 1 ≤ p := hp
      show P3.pageOff p = 1
      rw [hoff, if_neg (by omega), if_neg (by omega)]
      exact h.fresh_off p (by omega)
    · intro p o hp
      have hp2 : st.numPages + 1 ≤ p := hp
      exact h.fresh_data p o (by omega)
    · show P3.pageOff st.numPages % 2 = 1
      rw [hoff, if_pos rfl]
    · intro p hp hne
      have hp2 : p < st.numPages := by
        show p < st.numPages
        have : p < st.numPages + 1 := hp
        have : p ≠ st.numPages := hne
        omega
      show P3.pageOff p % 2 = 0
      rw [hoff, if_neg (by omega)]
      by_cases hqh : p = st.head
      · subst hqh
        rw [if_pos rfl]
        omega
      · rw [if_neg hqh]
        exact h.old_sealed p hp2 hqh
    · intro p hp
      by_cases hpn : p = st.numPages
      · have h0 : usedPos P3 p = 0 := by
          unfold usedPos
          rw [hoff, if_pos hpn]
        omega
      · have hp2 : p < st.numPages := by
          have : p < st.numPages + 1 := hp
          omega
        rw [husd p hp2]
        exact h.used_le p hp2
    · intro p hp q hq
      by_cases hpn : p = st.numPages
      · subst hpn
        rw [hstartsN] at hq
        exact absurd hq (by simp)
      · have hp2 : p < st.numPages := by
          have : p < st.numPages + 1 := hp
          omega
        rw [hstarts p hp2] at hq
        exact h.layout_lo p hp2 q hq
    · intro p hp q hq
      by_cases hpn : p = st.numPages
      · subst hpn
        rw [hstartsN] at hq
        exact absurd hq (by simp)
      · have hp2 : p < st.numPages := by
          have : p < st.numPages + 1 := hp
          omega
        rw [hstarts p hp2] at hq
        show q + entrySizeFromSize (st.data p q / 2) ≤ usedPos P3 p
        rw [husd p hp2]
        exact h.layout_fit p hp2 q hq
    · intro p o hp hend
      by_cases hpn : p = st.numPages
      · exact h.fresh_data p o (by omega)
      · have hp2 : p < st.numPages := by
          have : p < st.numPages + 1 := hp
          omega
        rw [husd p hp2] at hend
        exact h.free_zero p o hp2 hend
    · show st.shPage < st.numPages + 1
      have := h.sh_page
      omega
    · show st.shOff ∈ starts P3 st.shPage ∨ st.shOff = usedPos P3 st.shPage
      rw [hstarts st.shPage h.sh_page, husd st.shPage h.sh_page]
      exact h.sh_bound
    · intro p2 q hp2 hq hcond
      by_cases hpn : p2 = st.numPages
      · subst hpn
        rw [hstartsN] at hq
        exact absurd hq (by simp)
      · have hp3 : p2 < st.numPages := by
          have : p2 < st.numPages + 1 := hp2
          omega
        rw [hstarts p2 hp3] at hq
        exact h.prefix_sealed p2 q hp3 hq hcond
  rw [hgoal]
  by_cases hc : st.shPage = st.head ∧ st.shOff = usedPos P3 st.head
  · rw [if_pos hc]
    refine ⟨applyScan_inv hinv3, ?_, ?_, ?_, ?_⟩
    · show P3.head = st.numPages
      rfl
    · show P3.pageOff st.numPages = 1
      rw [hoff, if_pos rfl]
    · show P3.numPages = st.numPages + 1
      rfl
    · show P3.data = st.data
      rfl
  · rw [if_neg hc]
    refine ⟨hinv3, rfl, ?_, rfl, rfl⟩
    rw [hoff, if_pos rfl]

theorem pageAppendA_succ (st : LogState) (p size e fuel pos : Nat) :
    pageAppendA st p size e (fuel + 1) pos =
      if pos + e > MAX_ENTRY_SIZE then none
      else if st.data p pos ≠ 0 then
        pageAppendA st p size e fuel (pos + entrySizeFromSize (st.data p pos / 2))
      else
        some (if (setData st p pos (2 * size + 1)).pageOff p < 2 * (pos + e) + 1
              then setPageOff (setData st p pos (2 * size + 1)) p (2 * (pos + e) + 1)
              else setData st p pos (2 * size + 1), pos) := rfl

theorem appendAcquire_inv {st : LogState} (h : LogInv st) (size e : Nat)
    (hs : 1 ≤ size) (he : e = entrySizeFromSize size)
    (hfit : usedPos st st.head + e ≤ MAX_ENTRY_SIZE) :
    ∃ st2, pageAppend st st.head size e = some (st2, usedPos st st.head) ∧
      LogInv st2 ∧ shPos st2 = shPos st := by
  have hpp := h.pos_pages
  have hhl := h.head_last
  have hhu := h.head_unsealed
  have hhd : st.head < st.numPages := by omega
  have hsz : (2 * size + 1) / 2 = size := by omega
  have he32 : 32 ≤ e := he ▸ le32_entrySizeFromSize hs
  have hfree : st.data st.head (usedPos st st.head) = 0 :=
    h.free_zero st.head _ hhd (le_refl _)
  let ST2 : LogState :=
    setPageOff (setData st st.head (usedPos st st.head) (2 * size + 1)) st.head
      (2 * (usedPos st st.head + e) + 1)
  have hpOdd : st.pageOff st.head = 2 * usedPos st st.head + 1 := by
    unfold usedPos
    omega
  have heq : pageAppend st st.head size e = some (ST2, usedPos st st.head) := by
    unfold pageAppend
    rw [if_neg (by omega)]
    have hpos0 : st.pageOff st.head / 2 = usedPos st st.head := rfl
    rw [hpos0]
    show pageAppendA st st.head size e (MAX_ENTRY_SIZE + 1 + 1) (usedPos st st.head)
        = some (ST2, usedPos st st.head)
    rw [pageAppendA_succ]
    rw [if_neg (by omega), if_neg (by exact fun hc => hc hfree)]
    have hcond : (setData st st.head (usedPos st st.head) (2 * size + 1)).pageOff st.head
        < 2 * (usedPos st st.head + e) + 1 := by
      show st.pageOff st.head < 2 * (usedPos st st.head + e) + 1
      omega
    rw [if_pos hcond]
  have hdata2 : ∀ q x, ST2.data q x
      = if q = st.head ∧ x = usedPos st st.head then 2 * size + 1 else st.data q x :=
    fun q x => rfl
  have hoff2 : ∀ q, ST2.pageOff q
      = if q = st.head then 2 * (usedPos st st.head + e) + 1 else st.pageOff q :=
    fun q => rfl
  have husd2h : usedPos ST2 st.head = usedPos st st.head + e := by
    unfold usedPos
    rw [hoff2, if_pos rfl]
    omega
  have husd2 : ∀ q, q ≠ st.head → usedPos ST2 q = usedPos st q := by
    intro q hq
    unfold usedPos
    rw [hoff2, if_neg hq]
  have hstarts2 : ∀ q, q ≠ st.head → starts ST2 q = starts st q := by
    intro q hq
    unfold starts
    rw [husd2 q hq]
    refine entryStartsA_congr ?_ _ _
    intro y _
    rw [hdata2, if_neg (by rintro ⟨rfl, -⟩; exact hq rfl)]
  have hstarts2h : starts ST2 st.head
      = starts st st.head ++ [usedPos st st.head] := by
    unfold starts
    rw [husd2h]
    have hc1 : entryStartsA (ST2.data st.head) (usedPos st st.head + e)
        ((usedPos st st.head + e) - 0) 0
        = entryStartsA (fun x => if x = usedPos st st.head then 2 * size + 1
            else st.data st.head x) (usedPos st st.head + e)
            ((usedPos st st.head + e) - 0) 0 := by
      refine entryStartsA_congr ?_ _ _
      intro y _
      rw [hdata2]
      by_cases hy : y = usedPos st st.head
      · rw [if_pos ⟨rfl, hy⟩, if_pos hy]
      · rw [if_neg (by rintro ⟨-, h2⟩; exact hy h2), if_neg hy]
    show entryStartsA (ST2.data st.head) (usedPos st st.head + e)
        ((usedPos st st.head + e) - 0) 0 = _
    rw [hc1]
    have hext := entryStarts_extend (st.data st.head) (usedPos st st.head)
      (2 * size + 1) (usedPos st st.head) 0 (by omega) (by omega)
      (h.layout_fit st.head hhd)
    rw [hsz] at hext
    rw [← he] at hext
    exact hext
  have hshle : st.shPage ≤ st.head := by
    have := h.sh_page
    omega
  have hshlt : st.shOff ≤ usedPos st st.shPage := by
    rcases h.sh_bound with hb | hb
    · have := entryStarts_mem hb
      omega
    · omega
  have hinv2 : LogInv ST2 := by
    refine ⟨h.pos_pages, h.head_last, ?_, ?_, ?_, ?_, ?_, ?_, ?_, ?_, h.sh_page,
      ?_, ?_⟩
    · intro p hp
      have hp2 : st.numPages ≤ p := hp
      show ST2.pageOff p = 1
      rw [hoff2, if_neg (by omega)]
      exact h.fresh_off p hp2
    · intro p o hp
      have hp2 : st.numPages ≤ p := hp
      rw [hdata2, if_neg (by rintro ⟨rfl, -⟩; omega)]
      exact h.fresh_data p o hp2
    · show ST2.pageOff st.head % 2 = 1
      rw [hoff2, if_pos rfl]
      omega
    · intro p hp hne
      have hne2 : p ≠ st.head := hne
      have hp2 : p < st.numPages := hp
      show ST2.pageOff p % 2 = 0
      rw [hoff2, if_neg hne2]
      exact h.old_sealed p hp2 hne2
    · intro p hp
      have hp2 : p < st.numPages := hp
      by_cases hph : p = st.head
      · rw [hph, husd2h]
        exact hfit
      · rw [husd2 p hph]
        exact h.used_le p hp2
    · intro p hp q hq
      have hp2 : p < st.numPages := hp
      by_cases hph : p = st.head
      · rw [hph] at hq ⊢
        rw [hstarts2h] at hq
        rw [hdata2]
        rcases List.mem_append.1 hq with hq1 | hq2
        · have hm := entryStarts_mem hq1
          rw [if_neg (by rintro ⟨-, rfl⟩; omega)]
          exact h.layout_lo st.head hhd q hq1
        · have hqe : q = usedPos st st.head := by simpa using hq2
          rw [if_pos ⟨rfl, hqe⟩]
          omega
      · rw [hstarts2 p hph] at hq
        rw [hdata2, if_neg (by rintro ⟨rfl, -⟩; exact hph rfl)]
        exact h.layout_lo p hp2 q hq
    · intro p hp q hq
      have hp2 : p < st.numPages := hp
      by_cases hph : p = st.head
      · rw [hph] at hq ⊢
        rw [hstarts2h] at hq
        show q + entrySizeFromSize (ST2.data st.head q / 2) ≤ usedPos ST2 st.head
        rw [husd2h, hdata2]
        rcases List.mem_append.1 hq with hq1 | hq2
        · have hm := entryStarts_mem hq1
          rw [if_neg (by rintro ⟨-, rfl⟩; omega)]
          have hf := h.layout_fit st.head hhd q hq1
          omega
        · have hqe : q = usedPos st st.head := by simpa using hq2
          rw [if_pos ⟨rfl, hqe⟩, hsz, ← he, hqe]
      · show q + entrySizeFromSize (ST2.data p q / 2) ≤ usedPos ST2 p
        rw [hstarts2 p hph] at hq
        rw [husd2 p hph, hdata2, if_neg (by rintro ⟨rfl, -⟩; exact hph rfl)]
        exact h.layout_fit p hp2 q hq
    · intro p o hp hend
      have hp2 : p < st.numPages := hp
      by_cases hph : p = st.head
      · rw [hph] at hend ⊢
        rw [husd2h] at hend
        rw [hdata2, if_neg (by rintro ⟨-, rfl⟩; omega)]
        exact h.free_zero st.head o hhd (by omega)
      · rw [husd2 p hph] at hend
        rw [hdata2, if_neg (by rintro ⟨rfl, -⟩; exact hph rfl)]
        exact h.free_zero p o hp2 hend
    · show st.shOff ∈ starts ST2 st.shPage ∨ st.shOff = usedPos ST2 st.shPage
      by_cases hsh : st.shPage = st.head
      · rw [hsh, hstarts2h, husd2h]
        rcases h.sh_bound with hb | hb
        · left
          rw [hsh] at hb
          exact List.mem_append_left _ hb
        · left
          rw [hsh] at hb
          rw [hb]
          exact List.mem_append_right _ (by simp)
      · rw [hstarts2 st.shPage hsh, husd2 st.shPage hsh]
        exact h.sh_bound
    · intro p2 q hp2 hq hcond
      have hp3 : p2 < st.numPages := hp2
      have hshA : ST2.shPage = st.shPage := rfl
      have hshB : ST2.shOff = st.shOff := rfl
      rw [hshA, hshB] at hcond
      by_cases hph : p2 = st.head
      · rw [hph] at hq hcond ⊢
        rw [hstarts2h] at hq
        rw [hdata2]
        rcases List.mem_append.1 hq with hq1 | hq2
        · have hm := entryStarts_mem hq1
          rw [if_neg (by rintro ⟨-, rfl⟩; omega)]
          exact h.prefix_sealed st.head q hhd hq1 hcond
        · have hqe : q = usedPos st st.head := by simpa using hq2
          exfalso
          rcases hcond with hlt | ⟨heq2, hlt⟩
          · omega
          · rw [← heq2] at hshlt
            omega
      · rw [hstarts2 p2 hph] at hq
        rw [hdata2, if_neg (by rintro ⟨rfl, -⟩; exact hph rfl)]
        exact h.prefix_sealed p2 q hp3 hq hcond
  exact ⟨ST2, heq, hinv2, rfl⟩

theorem pageAppend_none {st : LogState} (h : LogInv st) (size e : Nat)
    (hnofit : MAX_ENTRY_SIZE < usedPos st st.head + e) :
    pageAppend st st.head size e = none := by
  have hhu := h.head_unsealed
  unfold pageAppend
  rw [if_neg (by omega)]
  have hpos0 : st.pageOff st.head / 2 = usedPos st st.head := rfl
  rw [hpos0]
  show pageAppendA st st.head size e (MAX_ENTRY_SIZE + 1 + 1) (usedPos st st.head) = none
  rw [pageAppendA_succ, if_pos (by omega)]

theorem appendOp_inv {st : LogState} (h : LogInv st) (size : Nat) :
    LogInv (appendOp st size) := by
  unfold appendOp
  by_cases hs0 : size = 0
  · rw [if_pos hs0]
    exact h
  · rw [if_neg hs0]
    by_cases hbig : entrySizeFromSize size > MAX_ENTRY_SIZE
    · simp only [if_pos hbig]
      exact h
    · simp only [if_neg hbig]
      by_cases hfit : usedPos st st.head + entrySizeFromSize size ≤ MAX_ENTRY_SIZE
      · obtain ⟨st2, heq, hinv, -⟩ := appendAcquire_inv h size _ (by omega) rfl hfit
        show LogInv (olAppendA st size (entrySizeFromSize size) (1 + 1))
        simp only [olAppendA]
        rw [heq]
        exact hinv
      · have hnone := pageAppend_none h size (entrySizeFromSize size) (by omega)
        obtain ⟨hinvA, hheadA, hoffA, hnumA, hdataA⟩ := createPageOp_main h
        have husdA : usedPos (createPageOp st) (createPageOp st).head = 0 := by
          unfold usedPos
          rw [hheadA, hoffA]
        have hfit2 : usedPos (createPageOp st) (createPageOp st).head
            + entrySizeFromSize size ≤ MAX_ENTRY_SIZE := by omega
        obtain ⟨st2, heq2, hinv2, -⟩ :=
          appendAcquire_inv hinvA size _ (by omega) rfl hfit2
        show LogInv (olAppendA st size (entrySizeFromSize size) (1 + 1))
        simp only [olAppendA]
        rw [hnone]
        show LogInv (olAppendA (createPageOp st) size (entrySizeFromSize size) (0 + 1))
        simp only [olAppendA]
        rw [heq2]
        exact hinv2

theorem logStep_inv {st : LogState} (h : LogInv st) (op : LogOp) :
    LogInv (logStep st op) := by
  cases op with
  | append size => exact appendOp_inv h size
  | sealEntry p o => exact sealEntryOp_inv h p o
  | mkPage => exact (createPageOp_main h).1

theorem initLog_inv : LogInv initLog := by
  have husd : ∀ p, usedPos initLog p = 0 := by
    intro p
    show (1 : Nat) / 2 = 0
    omega
  have hstart : ∀ p, starts initLog p = [] := by
    intro p
    unfold starts
    rw [husd p, entryStarts_unfold, if_neg (by omega)]
  refine ⟨?_, ?_, ?_, ?_, ?_, ?_, ?_, ?_, ?_, ?_, ?_, ?_, ?_⟩
  · show 0 < 1
    omega
  · rfl
  · intro p hp
    rfl
  · intro p o hp
    rfl
  · rfl
  · intro p hp hne
    have hp1 : p < 1 := hp
    have hp0 : p = 0 := by omega
    exact absurd hp0 hne
  · intro p hp
    rw [husd p]
    omega
  · intro p hp q hq
    rw [hstart p] at hq
    exact absurd hq (by simp)
  · intro p hp q hq
    rw [hstart p] at hq
    exact absurd hq (by simp)
  · intro p o hp hend
    rfl
  · show (0 : Nat) < 1
    omega
  · right
    rfl
  · intro p q hp hq hcond
    rw [hstart p] at hq
    exact absurd hq (by simp)

theorem logRun_inv (ops : List LogOp) : LogInv (logRun ops) := by
  suffices hgen : ∀ st, LogInv st → LogInv (List.foldl logStep st ops) from
    hgen initLog initLog_inv
  induction ops with
  | nil => intro st h; exact h
  | cons op rest ih =>
    intro st h
    exact ih (logStep st op) (logStep_inv h op)

theorem pageAppendA_sh (st : LogState) (p size e : Nat) :
    ∀ fuel pos pr, pageAppendA st p size e fuel pos = some pr →
      shPos pr.1 = shPos st := by
  intro fuel
  induction fuel with
  | zero => intro pos pr h; exact absurd h (by simp [pageAppendA])
  | succ n ih =>
    intro pos pr h
    rw [pageAppendA_succ] at h
    by_cases h1 : pos + e > MAX_ENTRY_SIZE
    · rw [if_pos h1] at h
      exact absurd h (by simp)
    · rw [if_neg h1] at h
      by_cases h2 : st.data p pos ≠ 0
      · rw [if_pos h2] at h
        exact ih _ pr h
      · rw [if_neg h2] at h
        simp only [Option.some.injEq] at h
        subst h
        by_cases h4 : (setData st p pos (2 * size + 1)).pageOff p < 2 * (pos + e) + 1
        · rw [if_pos h4]
          rfl
        · rw [if_neg h4]
          rfl

theorem pageAppend_sh {st : LogState} {p size e : Nat} {pr : LogState × Nat}
    (h : pageAppend st p size e = some pr) : shPos pr.1 = shPos st := by
  unfold pageAppend at h
  by_cases h1 : st.pageOff p % 2 = 0
  · rw [if_pos h1] at h
    exact absurd h (by simp)
  · rw [if_neg h1] at h
    exact pageAppendA_sh st p size e _ _ pr h

theorem applyScan_sh_mono (st : LogState) : chainLe (shPos st) (shPos (applyScan st)) :=
  advanceSealedHead_forward st st.shPage st.shOff

theorem sealEntryOp_sh_mono (st : LogState) (p o : Nat) :
    chainLe (shPos st) (shPos (sealEntryOp st p o)) := by
  unfold sealEntryOp
  by_cases hg : p < st.numPages ∧ o ∈ starts st p
  · rw [if_pos hg]
    by_cases hsh : (setData st p o (2 * (st.data p o / 2))).shPage = p ∧
        (setData st p o (2 * (st.data p o / 2))).shOff = o
    · rw [if_pos hsh]
      exact applyScan_sh_mono (setData st p o (2 * (st.data p o / 2)))
    · rw [if_neg hsh]
      exact chainLe_refl (shPos st)
  · rw [if_neg hg]
    exact chainLe_refl (shPos st)

theorem createPageOp_sh_mono (st : LogState) :
    chainLe (shPos st) (shPos (createPageOp st)) := by
  cases hnx : nextPage st st.head with
  | some n =>
    have heq : createPageOp st = { st with head := n } := by
      unfold createPageOp
      simp only [hnx]
    rw [heq]
    exact chainLe_refl (shPos st)
  | none =>
    let P3 : LogState :=
      { numPages := st.numPages + 1,
        pageOff := (fun q => if q = st.numPages then 1
          else if q = st.head then 2 * (st.pageOff st.head / 2) else st.pageOff q),
        data := st.data, head := st.numPages, shPage := st.shPage, shOff := st.shOff,
        tailPage := st.tailPage, tailOff := st.tailOff, freed := st.freed }
    have heq : createPageOp st
        = (if st.shPage = st.head ∧ st.shOff = usedPos P3 st.head then applyScan P3
           else P3) := by
      unfold createPageOp
      simp only [hnx]
      rfl
    rw [heq]
    by_cases hc : st.shPage = st.head ∧ st.shOff = usedPos P3 st.head
    · rw [if_pos hc]
      exact applyScan_sh_mono P3
    · rw [if_neg hc]
      exact chainLe_refl (shPos st)

theorem olAppendA_sh_mono (size e : Nat) :
    ∀ (fuel : Nat) (st0 : LogState),
      chainLe (shPos st0) (shPos (olAppendA st0 size e fuel)) := by
  intro fuel
  induction fuel with
  | zero => intro st0; exact chainLe_refl _
  | succ n ih =>
    intro st0
    simp only [olAppendA]
    cases hpa : pageAppend st0 st0.head size e with
    | some pr =>
      show chainLe (shPos st0) (shPos pr.1)
      rw [pageAppend_sh hpa]
      exact chainLe_refl _
    | none =>
      show chainLe (shPos st0) (shPos (olAppendA (createPageOp st0) size e n))
      exact chainLe_trans (createPageOp_sh_mono st0) (ih (createPageOp st0))

theorem appendOp_sh_mono (st : LogState) (size : Nat) :
    chainLe (shPos st) (shPos (appendOp st size)) := by
  unfold appendOp
  by_cases hs0 : size = 0
  · rw [if_pos hs0]
    exact chainLe_refl _
  · rw [if_neg hs0]
    by_cases hbig : entrySizeFromSize size > MAX_ENTRY_SIZE
    · simp only [if_pos hbig]
      exact chainLe_refl _
    · simp only [if_neg hbig]
      exact olAppendA_sh_mono size (entrySizeFromSize size) 2 st

theorem logStep_sh_mono (st : LogState) (op : LogOp) :
    chainLe (shPos st) (shPos (logStep st op)) := by
  cases op with
  | append size => exact appendOp_sh_mono st size
  | sealEntry p o => exact sealEntryOp_sh_mono st p o
  | mkPage => exact createPageOp_sh_mono st

theorem scanDecide_stop_at_start {st : LogState} (h : LogInv st) {p o : Nat}
    (hp : p < st.numPages) (hmem : o ∈ starts st p)
    (hstop : scanDecide st p o = ScanDec.stop) : st.data p o % 2 = 1 := by
  by_contra hodd
  have hev : st.data p o % 2 = 0 := by omega
  have hlo := h.layout_lo p hp o hmem
  have hle := (h.start_le_max hp hmem).2
  have hskip : scanDecide st p o
      = ScanDec.skipEntry (o + entrySizeFromSize (st.data p o / 2)) := by
    unfold scanDecide
    rw [if_pos hle, if_neg (by omega), if_pos (by omega)]
  rw [hstop] at hskip
  exact absurd hskip (by simp)

def opsC1 : List LogOp := [LogOp.append 16, LogOp.sealEntry 0 0, LogOp.mkPage]

/-- C1: in an OrderedLog, after any sequence of append, seal and createPage
operations, every entry strictly before sealedHead in chain order is sealed
(part 1) and sealedHead is non-decreasing in chain order under every further
operation (part 2); advanceSealedHead crosses to the next page only when the
current page is itself sealed and its stored offset equals the cursor offset
(part 3), and from any invariant state it stops, at an unsealed entry
whenever it stops on an entry at all (part 4). -/
theorem orderedLog_sealedHead_invariant :
    (∀ ops : List LogOp,
      prefixSealed (logRun ops) (logRun ops).shPage (logRun ops).shOff) ∧
    (∀ (ops : List LogOp) (op : LogOp),
      chainLe (shPos (logRun ops)) (shPos (logStep (logRun ops) op))) ∧
    (∀ (st : LogState), LogInv st → ∀ p o p2, p < st.numPages →
      scanBoundary st p o → scanDecide st p o = ScanDec.cross p2 →
      st.pageOff p % 2 = 0 ∧ usedPos st p = o ∧ nextPage st p = some p2) ∧
    (∀ (st : LogState) (p o : Nat), LogInv st → p < st.numPages →
      scanBoundary st p o → prefixSealed st p o →
      scanDecide st (advanceSealedHead st p o).1 (advanceSealedHead st p o).2
        = ScanDec.stop ∧
      ((advanceSealedHead st p o).2 ∈ starts st (advanceSealedHead st p o).1 →
        st.data (advanceSealedHead st p o).1 (advanceSealedHead st p o).2 % 2
          = 1)) := by
  refine ⟨?_, ?_, ?_, ?_⟩
  · intro ops
    exact (logRun_inv ops).prefix_sealed
  · intro ops op
    exact logStep_sh_mono (logRun ops) op
  · intro st h p o p2 hp hb hc
    exact scanDecide_cross_char h hp hb hc
  · intro st p o h hp hb hps
    have hmain := advanceScanA_inv h (scanFuel st) p o hp hb hps
    have hblock := advanceSealedHead_blocked st p o
    have hstop : scanDecide st (advanceSealedHead st p o).1
        (advanceSealedHead st p o).2 = ScanDec.stop := by
      rcases hblock with hs | hh
      · exact hs
      · exact absurd hh (scanDecide_no_halt h hmain.1 hmain.2.1)
    refine ⟨hstop, fun hmem => ?_⟩
    exact scanDecide_stop_at_start h hmain.1 hmem hstop

theorem orderedLog_sealedHead_invariant_witness :
    scanBoundary (logRun opsC1) 0 32 ∧
    (logRun opsC1).pageOff 0 % 2 = 0 ∧ usedPos (logRun opsC1) 0 = 32 ∧
    nextPage (logRun opsC1) 0 = some 1 := by
  have hb : scanBoundary (logRun opsC1) 0 32 := Or.inr (by decide)
  refine ⟨hb, ?_⟩
  exact orderedLog_sealedHead_invariant.2.2.1 (logRun opsC1) (logRun_inv opsC1)
    0 32 1 (by decide) hb (by decide)

/-- BaseLogImpl::freePage (lines 114-124): walk the next pointers from
begin until end, freeing every page on the way.  Fueled; none models the
null dereference when end is not reachable from begin. -/
def freeWalk (st : LogState) (target : Nat) : Nat → Nat → Option (List Nat)
  | 0, _ => none
  | fuel + 1, p =>
    if p = target then some []
    else
      match nextPage st p with
      | none => none
      | some p2 => Option.map (fun l => p :: l) (freeWalk st target fuel p2)

/-- OrderedLogImpl::truncateLog (lines 275-286): CAS the tail from old to
new; on failure return false and leave the state alone; on success free
the pages from the old tail page up to the new tail page when they
differ. -/
def truncateLog (st : LogState) (oldP oldO newP newO : Nat) :
    Option (LogState × Bool) :=
  if st.tailPage = oldP ∧ st.tailOff = oldO then
    if oldP ≠ newP then
      Option.map
        (fun l =>
          ({ st with
              tailPage := newP
              tailOff := newO
              freed := st.freed ++ l }, true))
        (freeWalk { st with tailPage := newP, tailOff := newO } newP
          st.numPages oldP)
    else some ({ st with tailPage := newP, tailOff := newO }, true)
  else some (st, false)

theorem freeWalk_range (st : LogState) (newP : Nat) :
    ∀ fuel oldP, oldP ≤ newP → newP < st.numPages → newP - oldP < fuel →
      freeWalk st newP fuel oldP = some (List.range' oldP (newP - oldP)) := by
  intro fuel
  induction fuel with
  | zero =>
    intro oldP h1 h2 h3
    exact absurd h3 (Nat.not_lt_zero _)
  | succ n ih =>
    intro oldP h1 h2 h3
    by_cases he : oldP = newP
    · rw [he]
      simp [freeWalk, Nat.sub_self]
    · have hlt : oldP < newP := Nat.lt_of_le_of_ne h1 he
      have hnx : nextPage st oldP = some (oldP + 1) := by
        unfold nextPage
        rw [if_pos (by omega)]
      simp only [freeWalk, if_neg he, hnx]
      rw [ih (oldP + 1) (by omega) h2 (by omega)]
      rw [show newP - oldP = (newP - (oldP + 1)) + 1 from by omega,
        List.range'_succ]
      rfl

def opsC7 : List LogOp := [LogOp.append 16, LogOp.mkPage]

/-- C7: truncateLog(old, new) returns true iff the tail equals old at CAS
time; on failure it returns false with the state unchanged; on success the
tail becomes new and exactly the pages from old's page up to but excluding
new's page are handed to reclamation — a list that is empty iff the two
positions lie on the same page. -/
theorem truncateLog_spec (st : LogState) (oldP oldO newP newO : Nat)
    (h1 : oldP ≤ newP) (h2 : newP < st.numPages) :
    (¬(st.tailPage = oldP ∧ st.tailOff = oldO) →
      truncateLog st oldP oldO newP newO = some (st, false)) ∧
    (st.tailPage = oldP ∧ st.tailOff = oldO →
      truncateLog st oldP oldO newP newO
        = some ({ st with
                   tailPage := newP
                   tailOff := newO
                   freed := st.freed ++ List.range' oldP (newP - oldP) },
                true)) ∧
    (List.range' oldP (newP - oldP) = [] ↔ oldP = newP) ∧
    (∀ r, truncateLog st oldP oldO newP newO = some r →
      (r.2 = true ↔ st.tailPage = oldP ∧ st.tailOff = oldO)) := by
  have hsucc : st.tailPage = oldP ∧ st.tailOff = oldO →
      truncateLog st oldP oldO newP newO
        = some ({ st with
                   tailPage := newP
                   tailOff := newO
                   freed := st.freed ++ List.range' oldP (newP - oldP) },
                true) := by
    intro hc
    unfold truncateLog
    rw [if_pos hc]
    by_cases hne : oldP = newP
    · rw [if_neg (by omega : ¬oldP ≠ newP)]
      have h0 : newP - oldP = 0 := by omega
      rw [h0, List.range'_zero, List.append_nil]
    · rw [if_pos hne]
      rw [freeWalk_range { st with tailPage := newP, tailOff := newO } newP
        st.numPages oldP h1 h2 (by omega)]
      rfl
  refine ⟨?_, hsucc, ?_, ?_⟩
  · intro hc
    unfold truncateLog
    rw [if_neg hc]
  · constructor
    · intro h
      have hl : newP - oldP = 0 := by
        simpa using congrArg List.length h
      omega
    · intro h
      rw [h, Nat.sub_self, List.range'_zero]
  · intro r hr
    by_cases hc : st.tailPage = oldP ∧ st.tailOff = oldO
    · rw [hsucc hc] at hr
      have hr2 := Option.some.inj hr
      rw [← hr2]
      exact iff_of_true rfl hc
    · unfold truncateLog at hr
      rw [if_neg hc] at hr
      have hr2 := Option.some.inj hr
      rw [← hr2]
      exact iff_of_false (by simp) hc

theorem truncateLog_spec_witness :
    (logRun opsC7).tailPage = 0 ∧ (logRun opsC7).tailOff = 0 ∧
    truncateLog (logRun opsC7) 0 0 1 0
      = some ({ logRun opsC7 with
                 tailPage := 1
                 tailOff := 0
                 freed := (logRun opsC7).freed ++ List.range' 0 (1 - 0) },
              true) := by
  refine ⟨by decide, by decide, ?_⟩
  exact (truncateLog_spec (logRun opsC7) 0 0 1 0 (by decide) (by decide)).2.1
    ⟨by decide, by decide⟩

theorem probedPositions_mod16 (occ : Nat → Option Nat) (e : Nat) :
    ∀ fuel pos, pos % 16 = 0 →
      ∀ q ∈ probedPositions occ e fuel pos, q % 16 = 0 := by
  intro fuel
  induction fuel with
  | zero =>
    intro pos h0 q hq
    exact absurd hq (by simp [probedPositions])
  | succ n ih =>
    intro pos h0 q hq
    simp only [probedPositions] at hq
    by_cases hg : pos + e > MAX_ENTRY_SIZE
    · rw [if_pos hg] at hq
      exact absurd hq (by simp)
    · rw [if_neg hg] at hq
      cases ho : occ pos with
      | none =>
        simp only [ho] at hq
        simp only [List.mem_singleton] at hq
        rw [hq]
        exact h0
      | some w =>
        simp only [ho] at hq
        rcases List.mem_cons.mp hq with rfl | hq2
        · exact h0
        · refine ih (pos + entrySizeFromSize (w / 2)) ?_ q hq2
          have h16 := entrySizeFromSize_mod16 (w / 2)
          omega

theorem appendProbeA_mod16 {occ : Nat → Option Nat} {e : Nat} :
    ∀ fuel pos pos', pos % 16 = 0 → appendProbeA occ e fuel pos = some pos' →
      pos' % 16 = 0 := by
  intro fuel
  induction fuel with
  | zero =>
    intro pos pos' h0 h
    exact absurd h (by simp [appendProbeA])
  | succ n ih =>
    intro pos pos' h0 h
    simp only [appendProbeA] at h
    by_cases hg : pos + e > MAX_ENTRY_SIZE
    · rw [if_pos hg] at h
      exact absurd h (by simp)
    · rw [if_neg hg] at h
      cases ho : occ pos with
      | none =>
        rw [ho] at h
        simp only [Option.some.injEq] at h
        subst h
        exact h0
      | some w =>
        rw [ho] at h
        refine ih _ _ ?_ h
        have h16 := entrySizeFromSize_mod16 (w / 2)
        omega

def occC9 (p : Nat) : Option Nat := if p = 0 then some 2 else none

def obsC9 : AppendObs := ⟨1, occC9, []⟩

def opsC9 : List LogOp := [LogOp.append 100]

/-- C9: every position the append probe hands to the alignment assertion
satisfies addr mod 16 = 8 for the entry header (headers live at
LOG_HEADER_SIZE + pos inside a 2 MiB aligned page): entrySizeFromSize is
always a multiple of 16 (part 1), probing preserves position mod 16 = 0
(part 2), under the log invariant page offsets and entry starts are
multiples of 16 so headers sit at alignment offset 8 (part 3), and a
successful acquisition publishes an offset that is again a multiple of 16
(part 4). -/
theorem appendEntry_alignment :
    (∀ s : Nat, entrySizeFromSize s % 16 = 0) ∧
    (∀ (occ : Nat → Option Nat) (e fuel pos : Nat), pos % 16 = 0 →
      ∀ q ∈ probedPositions occ e fuel pos,
        q % 16 = 0 ∧ (LOG_HEADER_SIZE + q) % 16 = 8) ∧
    (∀ st : LogState, LogInv st → ∀ p, p < st.numPages →
      usedPos st p % 16 = 0 ∧
      ∀ q ∈ starts st p, q % 16 = 0 ∧ (LOG_HEADER_SIZE + q) % 16 = 8) ∧
    (∀ (obs : AppendObs) (size pos : Nat),
      obs.initOffset / 2 % 16 = 0 → (logPageAppend obs size).2 = some pos →
      pos % 16 = 0 ∧ (pos + entrySizeFromSize size) % 16 = 0) := by
  have hH : LOG_HEADER_SIZE = 24 := rfl
  refine ⟨entrySizeFromSize_mod16, ?_, ?_, ?_⟩
  · intro occ e fuel pos h0 q hq
    have hq16 := probedPositions_mod16 occ e fuel pos h0 q hq
    exact ⟨hq16, by omega⟩
  · intro st h p hp
    have hfit := h.layout_fit p hp
    have hP : usedPos st p % 16 = 0 :=
      layout_end_mod16 (d := st.data p) (P := usedPos st p)
        (usedPos st p) 0 (by omega) (by omega) (by omega) hfit
    refine ⟨hP, fun q hq => ?_⟩
    have hq16 : q % 16 = 0 :=
      entryStartsA_mod16 (d := st.data p) (P := usedPos st p)
        (usedPos st p - 0) 0 q (by omega) hq
    exact ⟨hq16, by omega⟩
  · intro obs size pos hal h
    simp only [logPageAppend] at h
    by_cases hbig : entrySizeFromSize size > MAX_ENTRY_SIZE
    · rw [if_pos hbig] at h
      exact absurd h (by simp)
    · rw [if_neg hbig] at h
      unfold appendEntryObs at h
      by_cases hsl : obs.initOffset % 2 = 0
      · rw [if_pos hsl] at h
        exact absurd h (by simp)
      · rw [if_neg hsl] at h
        cases hpr : appendProbe obs.occ (obs.initOffset / 2)
            (entrySizeFromSize size) with
        | none =>
          rw [hpr] at h
          exact absurd h (by simp)
        | some q =>
          rw [hpr] at h
          have hq : pos = q := by
            by_cases hpub : publishLoop (q + entrySizeFromSize size)
                obs.initOffset obs.pubObs
            · simp only [if_pos hpub] at h
              exact (Option.some.inj h).symm
            · simp only [Bool.not_eq_true] at hpub
              simp only [hpub] at h
              simp only [Bool.false_eq_true, if_false] at h
              exact (Option.some.inj h).symm
          subst hq
          have h16 : pos % 16 = 0 :=
            appendProbeA_mod16 probeFuel (obs.initOffset / 2) pos hal hpr
          have he := entrySizeFromSize_mod16 size
          exact ⟨h16, by omega⟩

theorem appendEntry_alignment_witness :
    (32 ∈ probedPositions occC9 32 probeFuel 0 ∧
      32 % 16 = 0 ∧ (LOG_HEADER_SIZE + 32) % 16 = 8) ∧
    (usedPos (logRun opsC9) 0 % 16 = 0 ∧
      0 % 16 = 0 ∧ (LOG_HEADER_SIZE + 0) % 16 = 8) ∧
    ((logPageAppend obsC9 16).2 = some 32 ∧
      32 % 16 = 0 ∧ (32 + entrySizeFromSize 16) % 16 = 0) := by
  have hmem : 32 ∈ probedPositions occC9 32 probeFuel 0 := by decide
  have hsm : (logPageAppend obsC9 16).2 = some 32 := by decide
  refine ⟨⟨hmem, ?_⟩, ⟨?_, ?_⟩, hsm, ?_⟩
  · exact appendEntry_alignment.2.1 occC9 32 probeFuel 0 (by decide) 32 hmem
  · exact (appendEntry_alignment.2.2.1 (logRun opsC9) (logRun_inv opsC9)
      0 (by decide)).1
  · exact (appendEntry_alignment.2.2.1 (logRun opsC9) (logRun_inv opsC9)
      0 (by decide)).2 0 (by decide)
  · exact appendEntry_alignment.2.2.2 obsC9 16 32 (by decide) hsm
